import Mathlib

/-!
# VirtuFile, lazyreadwrite.c: request order, dispatch queue and per-file access control

A shallow embedding of the C source and the properties proved about it.

* C int values are integers; every int arithmetic expression of the source goes through
  wrapInt, the two's-complement wrap to 32 bits.  Where a property needs an expression not to
  overflow, the theorem says so in a hypothesis (isInt, UserQuery.timeOk, Config.ok).
* The globals queryQueue, queueFront, queueRear and simulationComplete form QueueState.  A call
  of popQuery that would wait on queueCondition for ever returns none.
* The library function qsort is not modelled by an algorithm: the theorems about the sorted
  array hold for every rearrangement of the input in which no element compares greater than a
  later one.
* The global array fileStatus is a list of records; an access outside the list is an
  out-of-bounds access of the C array and makes the embedded function return none.
* Every access to a FileStatus record happens with its threadLock held, so a run of the
  program is an interleaving of lock-held segments of the handlers.  The function segment is
  one such segment of one handler, from one acquisition of the lock to the next release
  (usleep in waitForOneSecondHelper, pthread_cond_timedwait in waitForAccessRead and its
  siblings, sleep after the admission, the final unlock); sysStep lets one worker run its next
  segment.  What a segment sees of the clock and of pthread_cond_timedwait is its Env, and
  envLegal says which observations can occur: each worker reads a clock that does not run
  backwards, and ETIMEDOUT is returned only once the deadline has passed.
-/

namespace LazyReadWrite

/-! ## Definitions: C integers, requests, the dispatch queue -/

/-- The value a C `int` holds after an arithmetic result `x`: wrap to 32 bits, signed. -/
def wrapInt (x : Int) : Int := (x + 2147483648) % 4294967296 - 2147483648

/-- Being representable as a C `int`. -/
def isInt (x : Int) : Prop := -2147483648 ≤ x ∧ x < 2147483648

instance (x : Int) : Decidable (isInt x) := by unfold isInt; infer_instance

def INVALID_OP : Int := -1
def READ_OP : Int := 0
def WRITE_OP : Int := 1
def DELETE_OP : Int := 2

def MAX_FILES : Nat := 100
def MAX_QUEUE : Nat := 100

/-- The C struct `UserQuery`. -/
structure UserQuery where
  userID : Int
  fileID : Int
  fileOperation : Int
  reqTime : Int
deriving DecidableEq, Repr

/-- The function `compareQueries`, the comparator handed to `qsort`. -/
def compareQueries (queryA queryB : UserQuery) : Int :=
  if queryA.reqTime ≠ queryB.reqTime then
    wrapInt (queryA.reqTime - queryB.reqTime)
  else if queryA.fileOperation ≠ queryB.fileOperation then
    wrapInt (queryA.fileOperation - queryB.fileOperation)
  else 0

/-- The globals of the dispatch queue.  `queueFront` and `queueRear` start at `0` and are only
ever assigned `(x + 1) % 100`, so they are kept as natural numbers. -/
structure QueueState where
  queryQueue : List UserQuery
  queueFront : Nat
  queueRear : Nat
  simulationComplete : Bool
deriving DecidableEq, Repr

/-- The query written by `initialiseQuery(&query, -1, -1, -1, -1)` in `popQuery`. -/
def invalidQuery : UserQuery := ⟨INVALID_OP, INVALID_OP, INVALID_OP, INVALID_OP⟩

/-- The queue globals at program start: zero-initialised storage, both indices `0`. -/
def initialQueue : QueueState :=
  { queryQueue := List.replicate MAX_QUEUE ⟨0, 0, 0, 0⟩
    queueFront := 0
    queueRear := 0
    simulationComplete := false }

def isQueueEmpty (s : QueueState) : Bool := s.queueFront == s.queueRear

def isQueueFull (s : QueueState) : Bool := (s.queueRear + 1) % MAX_QUEUE == s.queueFront

/-- The function `pushQueryToQueue`: a full queue is left as it is (the query is dropped). -/
def pushQueryToQueue (s : QueueState) (query : UserQuery) : QueueState :=
  if isQueueFull s then s
  else
    { s with
      queryQueue := s.queryQueue.set s.queueRear query
      queueRear := (s.queueRear + 1) % MAX_QUEUE }

/-- The function `popQuery`.  `none` stands for a call that does not return: it waits on
`queueCondition` for ever (empty queue, `simulationComplete` false, no producer left), or it
reads outside `queryQueue`. -/
def popQuery (s : QueueState) : Option (UserQuery × QueueState) :=
  if isQueueEmpty s && !s.simulationComplete then none
  else if !s.simulationComplete && !isQueueEmpty s then
    match s.queryQueue[s.queueFront]? with
    | none => none
    | some query => some (query, { s with queueFront := (s.queueFront + 1) % MAX_QUEUE })
  else some (invalidQuery, s)

/-- Successive calls of `pushQueryToQueue`, one per query, in list order. -/
def pushAll : List UserQuery → QueueState → QueueState
  | [], s => s
  | q :: rest, s => pushAll rest (pushQueryToQueue s q)

/-- Every push of `pushAll qs s` finds the queue not full. -/
def allAccepted : List UserQuery → QueueState → Bool
  | [], _ => true
  | q :: rest, s => !isQueueFull s && allAccepted rest (pushQueryToQueue s q)

/-- Run `n` successive calls of `popQuery`, collecting what they return. -/
def popN : Nat → QueueState → Option (List UserQuery × QueueState)
  | 0, s => some ([], s)
  | n + 1, s =>
    match popQuery s with
    | none => none
    | some (q, s1) =>
      match popN n s1 with
      | none => none
      | some (qs, s2) => some (q :: qs, s2)

/-- The push loop of `processInput`, run on the sorted `queryArray`: every element is handed to
`pushQueryToQueue` and `queryCount` is incremented each time.  Returns the queue and
`queryCount`. -/
def pushLoop : List UserQuery → QueueState × Int → QueueState × Int
  | [], st => st
  | q :: rest, (s, queryCount) => pushLoop rest (pushQueryToQueue s q, wrapInt (queryCount + 1))

/-- Number of queued requests, `(queueRear - queueFront) mod 100`. -/
def queueSize (s : QueueState) : Nat := (s.queueRear + MAX_QUEUE - s.queueFront) % MAX_QUEUE

/-- The `n` slots of the ring buffer `buf` starting at index `front`. -/
def slice (buf : List UserQuery) : Nat → Nat → List UserQuery
  | _, 0 => []
  | front, n + 1 => buf.getD front invalidQuery :: slice buf ((front + 1) % MAX_QUEUE) n

/-- The queued requests, oldest first. -/
def contents (s : QueueState) : List UserQuery := slice s.queryQueue s.queueFront (queueSize s)

/-- Well-formed queue globals: 100 slots, indices inside the array. -/
def QueueState.wf (s : QueueState) : Prop :=
  s.queryQueue.length = MAX_QUEUE ∧ s.queueFront < MAX_QUEUE ∧ s.queueRear < MAX_QUEUE

/-- A request as `processInput` stores it: its fields are C `int`s, the scheduled time is not
negative and the operation is one `mapOperationID` returns for READ, WRITE or DELETE. -/
def UserQuery.ingested (q : UserQuery) : Prop :=
  0 ≤ q.reqTime ∧ isInt q.reqTime
    ∧ (q.fileOperation = READ_OP ∨ q.fileOperation = WRITE_OP ∨ q.fileOperation = DELETE_OP)

instance (q : UserQuery) : Decidable q.ingested := by unfold UserQuery.ingested; infer_instance

/-! ## Definitions: per-file access control -/

/-- The C struct `FileStatus`, without `threadLock` and `signalCondition`. -/
structure FileStatus where
  isPresent : Bool
  writeInProgress : Bool
  deleteInProgress : Bool
  ReaderCount : Int
  currentUserCount : Int
  waiting_requests : Int
deriving DecidableEq, Repr

/-- The globals `processInput` reads from the input. -/
structure Config where
  readTime : Int
  writeTime : Int
  deleteTime : Int
  fileCount : Int
  maxUsers : Int
  maxWaitTime : Int
deriving DecidableEq, Repr

/-- One iteration of the loop of `resetFileStatus`. -/
def resetFile : FileStatus :=
  { isPresent := true, writeInProgress := false, deleteInProgress := false,
    ReaderCount := 0, currentUserCount := 0, waiting_requests := 0 }

/-- The array `fileStatus` after `resetFileStatus`. -/
def resetFileStatus : List FileStatus := List.replicate MAX_FILES resetFile

/-- Read of `fileStatus[i]`; `none` when `i` is outside the array. -/
def getFile (fileStatus : List FileStatus) (i : Int) : Option FileStatus :=
  if 0 ≤ i then fileStatus[i.toNat]? else none

/-- Write of `fileStatus[i]`. -/
def setFile (fileStatus : List FileStatus) (i : Int) (file : FileStatus) : List FileStatus :=
  fileStatus.set i.toNat file

/-- The function `checkResponseTime`, with `currentTime` the value of `fetchCurrentTime()`. -/
def checkResponseTime (cfg : Config) (currentTime : Int) (query : UserQuery) : Bool :=
  if wrapInt (currentTime - query.reqTime) ≥ cfg.maxWaitTime then false else true

/-- The function `checkCondForRead`.  The `||` chain is evaluated left to right and stops at the
first true operand, so `fileStatus[query.fileID]` is only read when `query.fileID < fileCount`. -/
def checkCondForRead (cfg : Config) (fileStatus : List FileStatus) (query : UserQuery) :
    Option Bool :=
  if query.fileID ≥ cfg.fileCount then some false
  else
    match getFile fileStatus query.fileID with
    | none => none
    | some f => if !f.isPresent || f.deleteInProgress then some false else some true

/-- The function `checkCondForWrite`. -/
def checkCondForWrite (cfg : Config) (fileStatus : List FileStatus) (query : UserQuery) :
    Option Bool :=
  if query.fileID ≥ cfg.fileCount then some false
  else
    match getFile fileStatus query.fileID with
    | none => none
    | some f => if !f.isPresent || f.deleteInProgress then some false else some true

/-- The function `checkCondForDelete`. -/
def checkCondForDelete (cfg : Config) (fileStatus : List FileStatus) (query : UserQuery) :
    Option Bool :=
  if query.fileID ≥ cfg.fileCount then some false
  else
    match getFile fileStatus query.fileID with
    | none => none
    | some f => if !f.isPresent || f.deleteInProgress then some false else some true

def startRead (file : FileStatus) : FileStatus :=
  { file with
    currentUserCount := wrapInt (file.currentUserCount + 1)
    ReaderCount := wrapInt (file.ReaderCount + 1) }

def finishRead (file : FileStatus) : FileStatus :=
  { file with
    currentUserCount := wrapInt (file.currentUserCount - 1)
    ReaderCount := wrapInt (file.ReaderCount - 1) }

def startWrite (file : FileStatus) : FileStatus :=
  { file with
    currentUserCount := wrapInt (file.currentUserCount + 1)
    writeInProgress := true }

def completeWrite (file : FileStatus) : FileStatus :=
  { file with
    currentUserCount := wrapInt (file.currentUserCount - 1)
    writeInProgress := false }

def startDelete (file : FileStatus) : FileStatus :=
  { file with
    deleteInProgress := true
    currentUserCount := wrapInt (file.currentUserCount + 1) }

def completeDelete (file : FileStatus) : FileStatus :=
  { file with
    currentUserCount := wrapInt (file.currentUserCount - 1)
    deleteInProgress := false
    isPresent := false }

/-- The loop condition of `waitForAccessRead`: the read may not be admitted yet. -/
def waitForAccessReadCond (cfg : Config) (file : FileStatus) : Bool :=
  decide (file.currentUserCount ≥ cfg.maxUsers)

/-- The loop condition of `waitForAccessWrite`. -/
def waitForAccessWriteCond (cfg : Config) (file : FileStatus) : Bool :=
  decide (file.currentUserCount ≥ cfg.maxUsers) || file.writeInProgress

/-- The loop condition of `waitForAccessDelete`. -/
def waitForAccessDeleteCond (cfg : Config) (file : FileStatus) : Bool :=
  decide (file.currentUserCount ≥ cfg.maxUsers) || file.writeInProgress
    || decide (file.ReaderCount > 0)

/-- Which of the three handlers `executeOperation` calls. -/
inductive Op
  | read
  | write
  | delete
deriving DecidableEq, Repr

/-- The dispatch of `executeOperation` on `query.fileOperation`; `none` is its final
`return false`. -/
def executeOperationKind (fileOperation : Int) : Option Op :=
  if fileOperation = READ_OP then some Op.read
  else if fileOperation = WRITE_OP then some Op.write
  else if fileOperation = DELETE_OP then some Op.delete
  else none

def waitCond (cfg : Config) : Op → FileStatus → Bool
  | Op.read => waitForAccessReadCond cfg
  | Op.write => waitForAccessWriteCond cfg
  | Op.delete => waitForAccessDeleteCond cfg

def checkCond (cfg : Config) : Op → List FileStatus → UserQuery → Option Bool
  | Op.read => checkCondForRead cfg
  | Op.write => checkCondForWrite cfg
  | Op.delete => checkCondForDelete cfg

def startOp : Op → FileStatus → FileStatus
  | Op.read => startRead
  | Op.write => startWrite
  | Op.delete => startDelete

def finishOp : Op → FileStatus → FileStatus
  | Op.read => finishRead
  | Op.write => completeWrite
  | Op.delete => completeDelete

/-- Where a worker stands in `handleFileRead` / `handleFileWrite` / `handleFileDeletion` while
it does not hold `threadLock`. -/
inductive Pc
  -- The handler has not been entered yet.
  | entry
  -- In `waitForOneSecondHelper`, inside `usleep`, lock released.
  | settle
  -- In `waitForAccess*`, inside `pthread_cond_timedwait`; `deadline` is `timeSpec.tv_sec`,
  --   counted from `initTime`.
  | waiting (deadline : Int)
  -- After `start*`, inside `sleep`, lock released.
  | executing
  -- The handler has returned `result`.
  | done (result : Bool)
deriving DecidableEq, Repr

/-- What a lock-held segment of a handler observes of the outside world. -/
structure Env where
  -- Value of `fetchCurrentTime()` in the loop test of `waitForOneSecondHelper`.
  tSettle : Int
  -- Seconds of `clock_gettime` in `waitForAccess*`, counted from `initTime`.
  tStart : Int
  -- Value of `fetchCurrentTime()` in `checkResponseTime`.
  tCheck : Int
  -- Whether `pthread_cond_timedwait` returned `ETIMEDOUT`.
  timedOut : Bool
deriving DecidableEq, Repr

/-- `file->waiting_requests++`. -/
def incWaiting (file : FileStatus) : FileStatus :=
  { file with waiting_requests := wrapInt (file.waiting_requests + 1) }

/-- `file->waiting_requests--`. -/
def decWaiting (file : FileStatus) : FileStatus :=
  { file with waiting_requests := wrapInt (file.waiting_requests - 1) }

/-- Phase C and the admission: the operands `!checkResponseTime(query)` and
`!checkCondFor*(query, file)` of the handler's `if`, then either the abort branch
(`waiting_requests--`, unlock, `return false`) or `waiting_requests--`, `start*`, unlock. -/
def admission (cfg : Config) (op : Op) (query : UserQuery) (fileID : Int) (env : Env)
    (fileStatus : List FileStatus) : Option (Pc × List FileStatus) :=
  match getFile fileStatus fileID with
  | none => none
  | some file =>
    if !checkResponseTime cfg env.tCheck query then
      some (Pc.done false, setFile fileStatus fileID (decWaiting file))
    else
      match checkCond cfg op fileStatus query with
      | none => none
      | some false => some (Pc.done false, setFile fileStatus fileID (decWaiting file))
      | some true => some (Pc.executing, setFile fileStatus fileID (startOp op (decWaiting file)))

/-- The loop test of `waitForAccess*`: either call `pthread_cond_timedwait` (which releases the
lock) or leave the loop and go on to Phase C. -/
def accessTest (cfg : Config) (op : Op) (query : UserQuery) (fileID : Int) (deadline : Int)
    (env : Env) (fileStatus : List FileStatus) : Option (Pc × List FileStatus) :=
  match getFile fileStatus fileID with
  | none => none
  | some file =>
    if waitCond cfg op file then some (Pc.waiting deadline, fileStatus)
    else admission cfg op query fileID env fileStatus

/-- The loop test of `waitForOneSecondHelper`: either unlock and sleep, or go on to
`waitForAccess*`, which first computes its deadline `tv_sec + (maxWaitTime - 1)`. -/
def settleTest (cfg : Config) (op : Op) (query : UserQuery) (fileID : Int) (env : Env)
    (fileStatus : List FileStatus) : Option (Pc × List FileStatus) :=
  if !decide (env.tSettle ≥ wrapInt (query.reqTime + 1)) then some (Pc.settle, fileStatus)
  else accessTest cfg op query fileID (env.tStart + wrapInt (cfg.maxWaitTime - 1)) env fileStatus

/-- One lock-held segment of `handleFileRead` / `handleFileWrite` / `handleFileDeletion`
(selected by `op`), from the point `pc` where the worker acquires `threadLock` to the point where
it releases it next.  `none`: the worker has returned already, or the segment accesses
`fileStatus` out of bounds. -/
def segment (cfg : Config) (op : Op) (query : UserQuery) (fileID : Int) (pc : Pc) (env : Env)
    (fileStatus : List FileStatus) : Option (Pc × List FileStatus) :=
  -- `pthread_mutex_lock(&file->threadLock)` with `file = &fileStatus[fileID]`
  match getFile fileStatus fileID with
  | none => none
  | some file =>
    match pc with
    | Pc.entry => settleTest cfg op query fileID env (setFile fileStatus fileID (incWaiting file))
    | Pc.settle => settleTest cfg op query fileID env fileStatus
    | Pc.waiting deadline =>
      if env.timedOut then admission cfg op query fileID env fileStatus
      else accessTest cfg op query fileID deadline env fileStatus
    | Pc.executing => some (Pc.done true, setFile fileStatus fileID (finishOp op file))
    | Pc.done _ => none

/-- A handler run by a worker that is alone on its file: its segments follow each other with no
other worker changing `fileStatus` in between; `envs` are the observations of the successive
segments.  `none`: the handler has not returned when `envs` is used up, or a segment is
undefined. -/
def runHandler (cfg : Config) (op : Op) (query : UserQuery) (fileID : Int) :
    Pc → List Env → List FileStatus → Option (Bool × List FileStatus)
  | Pc.done result, _, fileStatus => some (result, fileStatus)
  | _, [], _ => none
  | pc, env :: rest, fileStatus =>
    match segment cfg op query fileID pc env fileStatus with
    | none => none
    | some (pc1, fileStatus1) => runHandler cfg op query fileID pc1 rest fileStatus1

def handleFileRead (cfg : Config) (query : UserQuery) (fileID : Int) (envs : List Env)
    (fileStatus : List FileStatus) : Option (Bool × List FileStatus) :=
  runHandler cfg Op.read query fileID Pc.entry envs fileStatus

def handleFileWrite (cfg : Config) (query : UserQuery) (fileID : Int) (envs : List Env)
    (fileStatus : List FileStatus) : Option (Bool × List FileStatus) :=
  runHandler cfg Op.write query fileID Pc.entry envs fileStatus

def handleFileDeletion (cfg : Config) (query : UserQuery) (fileID : Int) (envs : List Env)
    (fileStatus : List FileStatus) : Option (Bool × List FileStatus) :=
  runHandler cfg Op.delete query fileID Pc.entry envs fileStatus

/-- A worker thread inside `executeOperation`. -/
structure Thread where
  query : UserQuery
  pc : Pc
  -- the last clock value this worker has read
  seen : Int
deriving DecidableEq, Repr

/-- The shared state: the array `fileStatus` and the workers. -/
structure Sys where
  fileStatus : List FileStatus
  threads : List Thread
deriving DecidableEq, Repr

/-- The observations a segment of a worker may make: the clock never runs backwards (`seen` is
the last value the worker has read, and the segment reads in program order), its values fit an
`int`, and `pthread_cond_timedwait` returns `ETIMEDOUT` only once its deadline has passed. -/
def envLegal (seen : Int) (pc : Pc) (env : Env) : Bool :=
  decide (seen ≤ env.tSettle) && decide (env.tSettle ≤ env.tStart)
    && decide (env.tStart ≤ env.tCheck) && decide (env.tCheck < 2147483648)
    && (match pc with
        | Pc.waiting deadline => !env.timedOut || decide (deadline ≤ env.tCheck)
        | _ => true)

/-- Worker `i` runs its next lock-held segment. -/
def sysStep (cfg : Config) (i : Nat) (env : Env) (s : Sys) : Option Sys :=
  match s.threads[i]? with
  | none => none
  | some t =>
    if !envLegal t.seen t.pc env then none
    else
      match executeOperationKind t.query.fileOperation with
      | none =>
        if t.pc = Pc.entry then
          some { s with threads := s.threads.set i { t with pc := Pc.done false } }
        else none
      | some op =>
        match segment cfg op t.query t.query.fileID t.pc env s.fileStatus with
        | none => none
        | some (pc1, fileStatus1) =>
          some { fileStatus := fileStatus1
                 threads := s.threads.set i { t with pc := pc1, seen := env.tCheck } }

/-- The state after `processInput`: `resetFileStatus` has run, `initTime` is now, and every
worker is about to enter its handler. -/
def initSys (queries : List UserQuery) : Sys :=
  { fileStatus := resetFileStatus
    threads := queries.map (fun q => { query := q, pc := Pc.entry, seen := 0 }) }

/-- Run a schedule: a list of (worker, observations) choices. -/
def runSys (cfg : Config) : List (Nat × Env) → Sys → Option Sys
  | [], s => some s
  | (i, env) :: rest, s =>
    match sysStep cfg i env s with
    | none => none
    | some s1 => runSys cfg rest s1

/-- The states the program can reach from `initSys queries`. -/
inductive Reachable (cfg : Config) (queries : List UserQuery) : Sys → Prop
  | init : Reachable cfg queries (initSys queries)
  | step (s s1 : Sys) (i : Nat) (env : Env) :
      Reachable cfg queries s → sysStep cfg i env s = some s1 → Reachable cfg queries s1

/-- The operation code `executeOperation` tests for. -/
def opCode : Op → Int
  | Op.read => READ_OP
  | Op.write => WRITE_OP
  | Op.delete => DELETE_OP

/-- The test of `checkCondFor*` once `fileStatus[query.fileID]` is the record `file`. -/
def validFile (cfg : Config) (query : UserQuery) (file : FileStatus) : Bool :=
  !(decide (query.fileID ≥ cfg.fileCount) || !file.isPresent || file.deleteInProgress)

def fileAdmission (cfg : Config) (op : Op) (query : UserQuery) (env : Env) (file : FileStatus) :
    Pc × FileStatus :=
  if !checkResponseTime cfg env.tCheck query then (Pc.done false, decWaiting file)
  else if validFile cfg query file then (Pc.executing, startOp op (decWaiting file))
  else (Pc.done false, decWaiting file)

def fileAccessTest (cfg : Config) (op : Op) (query : UserQuery) (deadline : Int) (env : Env)
    (file : FileStatus) : Pc × FileStatus :=
  if waitCond cfg op file then (Pc.waiting deadline, file)
  else fileAdmission cfg op query env file

def fileSettleTest (cfg : Config) (op : Op) (query : UserQuery) (env : Env) (file : FileStatus) :
    Pc × FileStatus :=
  if !decide (env.tSettle ≥ wrapInt (query.reqTime + 1)) then (Pc.settle, file)
  else fileAccessTest cfg op query (env.tStart + wrapInt (cfg.maxWaitTime - 1)) env file

/-- The effect of `segment` on the record `fileStatus[query.fileID]`. -/
def fileSegment (cfg : Config) (op : Op) (query : UserQuery) (pc : Pc) (env : Env)
    (file : FileStatus) : Option (Pc × FileStatus) :=
  match pc with
  | Pc.entry => some (fileSettleTest cfg op query env (incWaiting file))
  | Pc.settle => some (fileSettleTest cfg op query env file)
  | Pc.waiting deadline =>
    some (if env.timedOut then fileAdmission cfg op query env file
          else fileAccessTest cfg op query deadline env file)
  | Pc.executing => some (Pc.done true, finishOp op file)
  | Pc.done _ => none

def bit (b : Bool) : Int := if b then 1 else 0

/-- What ties a record to the numbers `r`, `w`, `d` of workers that are reading, writing and
deleting the file. -/
structure FileOk (cfg : Config) (r w d : Nat) (f : FileStatus) : Prop where
  readers : f.ReaderCount = r
  writers : (w : Int) = bit f.writeInProgress
  deleters : (d : Int) = bit f.deleteInProgress
  total : f.currentUserCount = f.ReaderCount + bit f.writeInProgress + bit f.deleteInProgress
  cap : f.currentUserCount ≤ cfg.maxUsers ∨ f.currentUserCount = 0
  excl : f.deleteInProgress = true → f.ReaderCount = 0 ∧ f.writeInProgress = false
  gone : f.isPresent = false → f.currentUserCount = 0

/-- Two records that differ at most in `waiting_requests`. -/
def sameCore (f g : FileStatus) : Prop :=
  g.isPresent = f.isPresent ∧ g.writeInProgress = f.writeInProgress
    ∧ g.deleteInProgress = f.deleteInProgress ∧ g.ReaderCount = f.ReaderCount
    ∧ g.currentUserCount = f.currentUserCount

/-- What a segment does to the record it works on. -/
inductive Effect (cfg : Config) (op : Op) (q : UserQuery) (env : Env) :
    Pc → FileStatus → Pc → FileStatus → Prop
  | stay (pc pc1 : Pc) (f f1 : FileStatus) :
      pc ≠ Pc.executing → pc1 ≠ Pc.executing → pc1 ≠ Pc.done true → sameCore f f1 →
      (∀ d, pc1 = Pc.waiting d →
        pc = Pc.waiting d ∨
          ((pc = Pc.entry ∨ pc = Pc.settle) ∧ wrapInt (q.reqTime + 1) ≤ env.tSettle
            ∧ d = env.tStart + wrapInt (cfg.maxWaitTime - 1))) →
      Effect cfg op q env pc f pc1 f1
  | enter (pc : Pc) (f g : FileStatus) :
      pc ≠ Pc.executing → sameCore f g →
      (waitCond cfg op f = false ∨ ∃ d, pc = Pc.waiting d ∧ env.timedOut = true) →
      validFile cfg q f = true → checkResponseTime cfg env.tCheck q = true →
      (pc = Pc.entry ∨ pc = Pc.settle → wrapInt (q.reqTime + 1) ≤ env.tSettle) →
      Effect cfg op q env pc f Pc.executing (startOp op g)
  | finish (f : FileStatus) :
      Effect cfg op q env Pc.executing f (Pc.done true) (finishOp op f)

/-- A request whose scheduled time is not negative and whose `reqTime + 1` is an `int`. -/
def UserQuery.timeOk (q : UserQuery) : Prop := 0 ≤ q.reqTime ∧ q.reqTime + 1 < 2147483648

instance (q : UserQuery) : Decidable q.timeOk := by unfold UserQuery.timeOk; infer_instance

/-- The globals `maxUsers` and `maxWaitTime` are C `int`s. -/
def Config.ok (cfg : Config) : Prop := isInt cfg.maxUsers ∧ isInt cfg.maxWaitTime

instance (cfg : Config) : Decidable cfg.ok := by unfold Config.ok; infer_instance

/-- Worker `t` is between the `start*` and the `finish*` / `complete*` of operation code `opc`
on file `k`. -/
def executingOn (opc k : Int) (t : Thread) : Bool :=
  decide (t.query.fileID = k) && decide (t.query.fileOperation = opc)
    && decide (t.pc = Pc.executing)

def execCount (opc k : Int) (threads : List Thread) : Nat := threads.countP (executingOn opc k)

/-- What a worker inside `pthread_cond_timedwait` has been through, in the code's own `int`
arithmetic: the settle test passed at an earlier clock value, and the deadline was computed from
a later one. -/
def ThreadTimed (cfg : Config) (t : Thread) : Prop :=
  ∀ d, t.pc = Pc.waiting d →
    wrapInt (t.query.reqTime + 1) ≤ t.seen
      ∧ wrapInt (t.query.reqTime + 1) + wrapInt (cfg.maxWaitTime - 1) ≤ d

def SysTimed (cfg : Config) (s : Sys) : Prop := ∀ t ∈ s.threads, ThreadTimed cfg t

def ThreadOk (t : Thread) : Prop :=
  t.query.timeOk
    ∧ (t.pc = Pc.executing → ∃ op, executeOperationKind t.query.fileOperation = some op)

structure SysOk (cfg : Config) (s : Sys) : Prop where
  timed : SysTimed cfg s
  threads : ∀ t ∈ s.threads, ThreadOk t
  files : ∀ k f, getFile s.fileStatus k = some f →
    FileOk cfg (execCount READ_OP k s.threads) (execCount WRITE_OP k s.threads)
      (execCount DELETE_OP k s.threads) f

/-- Any number of steps. -/
inductive Steps (cfg : Config) : Sys → Sys → Prop
  | refl (s : Sys) : Steps cfg s s
  | step (s s1 s2 : Sys) (i : Nat) (env : Env) :
      Steps cfg s s1 → sysStep cfg i env s1 = some s2 → Steps cfg s s2

/-! ## Definitions: data of the worked instances -/

def hundredRequests : List UserQuery :=
  (List.range 100).map (fun (i : Nat) => UserQuery.mk ((i : Int) + 1) 0 READ_OP (i : Int))

def sampleInput : List UserQuery :=
  [⟨1, 0, WRITE_OP, 1⟩, ⟨2, 1, READ_OP, 3⟩, ⟨3, 0, READ_OP, 1⟩, ⟨4, 0, DELETE_OP, 1⟩]

def sampleSorted : List UserQuery :=
  [⟨3, 0, READ_OP, 1⟩, ⟨1, 0, WRITE_OP, 1⟩, ⟨4, 0, DELETE_OP, 1⟩, ⟨2, 1, READ_OP, 3⟩]

def sampleCfg : Config :=
  { readTime := 1, writeTime := 1, deleteTime := 1, fileCount := 1, maxUsers := 2,
    maxWaitTime := 5 }

def sampleQueries : List UserQuery :=
  [⟨1, 0, WRITE_OP, 0⟩, ⟨2, 0, DELETE_OP, 0⟩, ⟨3, 0, READ_OP, 0⟩]

/-- Observations of a segment that runs within second `t` and sees no timeout. -/
def envAt (t : Int) : Env := { tSettle := t, tStart := t, tCheck := t, timedOut := false }

/-- The state reached by `sched` from `initSys sampleQueries` under `sampleCfg`. -/
def sampleState (sched : List (Nat × Env)) : Sys :=
  (runSys sampleCfg sched (initSys sampleQueries)).getD (initSys sampleQueries)

/-- User 1 is admitted to write, user 2 (delete) has to wait, user 1 completes. -/
def schedWritten : List (Nat × Env) := [(0, envAt 1), (1, envAt 1), (0, envAt 2)]

/-- Then user 2 is woken and admitted to delete. -/
def schedDeleting : List (Nat × Env) := schedWritten ++ [(1, envAt 2)]

/-- Then user 2 completes: the file is gone. -/
def schedDeleted : List (Nat × Env) := schedDeleting ++ [(1, envAt 3)]

/-- Then user 3 (read) enters its handler and is declined. -/
def schedDeclined : List (Nat × Env) := schedDeleted ++ [(2, envAt 3)]

/-- User 1 is admitted to write, user 2 has to wait, and nothing else happens. -/
def schedBlocked : List (Nat × Env) := [(0, envAt 1), (1, envAt 1)]

/-- The same, and then the wait of user 2 ends by `ETIMEDOUT` at second 5. -/
def schedTimedOut : List (Nat × Env) :=
  schedBlocked ++ [(1, { tSettle := 5, tStart := 5, tCheck := 5, timedOut := true })]

def sampleDeleter : UserQuery := ⟨2, 0, DELETE_OP, 0⟩

def sampleReader : UserQuery := ⟨3, 0, READ_OP, 0⟩

/-- The record of file 0 once user 1 has completed its write while user 2 waits. -/
def fileWritten : FileStatus := ⟨true, false, false, 0, 0, 1⟩

/-- The record of file 0 while user 2 deletes it. -/
def fileDeleting : FileStatus := ⟨true, false, true, 0, 1, 0⟩

/-- The record of file 0 once it is deleted. -/
def fileDeleted : FileStatus := ⟨false, false, false, 0, 0, 0⟩

/-- A request for file number 0 of the input, which `processInput` stores as index -1. -/
def negativeIndexQuery : UserQuery := ⟨1, -1, READ_OP, 0⟩

/-! ## The dispatch queue as a list, and the request order -/

theorem slice_length (buf : List UserQuery) (n front : Nat) : (slice buf front n).length = n := by
  induction n generalizing front with
  | zero => rfl
  | succ n ih => simp [slice, ih]

theorem slice_snoc (buf : List UserQuery) (n front : Nat) (hf : front < MAX_QUEUE) :
    slice buf front (n + 1)
      = slice buf front n ++ [buf.getD ((front + n) % MAX_QUEUE) invalidQuery] := by
  induction n generalizing front with
  | zero =>
    have : front % MAX_QUEUE = front := Nat.mod_eq_of_lt hf
    simp [slice, this]
  | succ n ih =>
    have hlt : (front + 1) % MAX_QUEUE < MAX_QUEUE := Nat.mod_lt _ (by decide)
    have hmod : ((front + 1) % MAX_QUEUE + n) % MAX_QUEUE = (front + (n + 1)) % MAX_QUEUE := by
      unfold MAX_QUEUE; omega
    rw [slice, ih _ hlt, hmod]
    rfl

theorem slice_set_of_far (buf : List UserQuery) (q : UserQuery) (n front k : Nat)
    (hf : front < MAX_QUEUE) (hk : k < MAX_QUEUE) (hn : n ≤ (k + MAX_QUEUE - front) % MAX_QUEUE) :
    slice (buf.set k q) front n = slice buf front n := by
  induction n generalizing front with
  | zero => rfl
  | succ n ih =>
    have hlt : (front + 1) % MAX_QUEUE < MAX_QUEUE := Nat.mod_lt _ (by decide)
    have hne : k ≠ front := by
      intro h; subst h; unfold MAX_QUEUE at *; omega
    have hn2 : n ≤ (k + MAX_QUEUE - (front + 1) % MAX_QUEUE) % MAX_QUEUE := by
      unfold MAX_QUEUE at *; omega
    simp only [slice, ih _ hlt hn2]
    congr 1
    simp [List.getD, List.getElem?_set, hne]

theorem push_contents (s : QueueState) (q : UserQuery) (hwf : s.wf) (hfull : isQueueFull s = false) :
    contents (pushQueryToQueue s q) = contents s ++ [q]
      ∧ (pushQueryToQueue s q).wf
      ∧ (pushQueryToQueue s q).simulationComplete = s.simulationComplete
      ∧ (pushQueryToQueue s q).queueFront = s.queueFront := by
  obtain ⟨hlen, hf, hr⟩ := hwf
  have hfull2 : (s.queueRear + 1) % MAX_QUEUE ≠ s.queueFront := by
    simpa [isQueueFull] using hfull
  have hsz : queueSize (pushQueryToQueue s q) = queueSize s + 1 := by
    simp only [pushQueryToQueue, hfull, queueSize]
    unfold MAX_QUEUE at *; simp; omega
  have hrear : (s.queueFront + queueSize s) % MAX_QUEUE = s.queueRear := by
    unfold queueSize MAX_QUEUE at *; omega
  refine ⟨?_, ?_, ?_, ?_⟩
  · unfold contents
    rw [hsz]
    simp only [pushQueryToQueue, hfull]
    simp only [Bool.false_eq_true, if_false]
    rw [slice_snoc _ _ _ hf, hrear, slice_set_of_far _ _ (queueSize s) _ _ hf hr (le_refl _)]
    congr 1
    simp [List.getD, List.getElem?_set, hlen, hr]
  · simp only [pushQueryToQueue, hfull]
    refine ⟨?_, hf, ?_⟩
    · simpa using hlen
    · exact Nat.mod_lt _ (by decide)
  · simp [pushQueryToQueue, hfull]
  · simp [pushQueryToQueue, hfull]

theorem pop_contents (s : QueueState) (hwf : s.wf) (hsc : s.simulationComplete = false)
    (q : UserQuery) (rest : List UserQuery) (hc : contents s = q :: rest) :
    ∃ s1, popQuery s = some (q, s1) ∧ contents s1 = rest ∧ s1.wf
      ∧ s1.simulationComplete = false ∧ s1.queueRear = s.queueRear := by
  obtain ⟨hlen, hf, hr⟩ := hwf
  have hsz : queueSize s = rest.length + 1 := by
    have := congrArg List.length hc
    simpa [contents, slice_length] using this
  have hne : s.queueFront ≠ s.queueRear := by
    intro h; unfold queueSize MAX_QUEUE at *; omega
  have hget : s.queryQueue[s.queueFront]? = some q := by
    unfold contents at hc
    rw [hsz, slice] at hc
    have h1 := (List.cons.inj hc).1
    have hlt : s.queueFront < s.queryQueue.length := by rw [hlen]; exact hf
    simp [List.getD, List.getElem?_eq_getElem hlt] at h1
    simp [List.getElem?_eq_getElem hlt, h1]
  refine ⟨{ s with queueFront := (s.queueFront + 1) % MAX_QUEUE }, ?_, ?_, ?_, hsc, rfl⟩
  · simp [popQuery, isQueueEmpty, hne, hsc, hget]
  · unfold contents at hc ⊢
    rw [hsz, slice] at hc
    have h2 := (List.cons.inj hc).2
    have hsz2 : queueSize { s with queueFront := (s.queueFront + 1) % MAX_QUEUE } = rest.length := by
      unfold queueSize MAX_QUEUE at *; simp; omega
    rw [hsz2]; exact h2
  · exact ⟨hlen, Nat.mod_lt _ (by decide), hr⟩

theorem popN_contents (n : Nat) (s : QueueState) (hwf : s.wf) (hsc : s.simulationComplete = false)
    (hn : (contents s).length = n) :
    ∃ s1, popN n s = some (contents s, s1) ∧ s1.queueFront = s1.queueRear ∧ s1.wf
      ∧ s1.simulationComplete = false := by
  induction n generalizing s with
  | zero =>
    refine ⟨s, ?_, ?_, hwf, hsc⟩
    · have : contents s = [] := List.length_eq_zero.mp hn
      simp [popN, this]
    · have h0 : queueSize s = 0 := by simpa [contents, slice_length] using hn
      obtain ⟨_, hf, hr⟩ := hwf
      unfold queueSize MAX_QUEUE at *; omega
  | succ n ih =>
    match hc : contents s with
    | [] => rw [hc] at hn; simp at hn
    | q :: rest =>
      obtain ⟨s1, hpop, hc1, hwf1, hsc1, _⟩ := pop_contents s hwf hsc q rest hc
      have hlen1 : (contents s1).length = n := by
        rw [hc] at hn; rw [hc1]; simpa using hn
      obtain ⟨s2, hpopN, hemp, hwf2, hsc2⟩ := ih s1 hwf1 hsc1 hlen1
      refine ⟨s2, ?_, hemp, hwf2, hsc2⟩
      simp [popN, hpop, hpopN, hc1]

theorem contents_of_empty (s : QueueState) (hwf : s.wf) (h : s.queueFront = s.queueRear) :
    contents s = [] := by
  obtain ⟨_, hf, hr⟩ := hwf
  have : queueSize s = 0 := by unfold queueSize MAX_QUEUE at *; omega
  simp [contents, this, slice]

theorem contents_length (s : QueueState) : (contents s).length = queueSize s := by
  simp [contents, slice_length]

theorem isQueueFull_iff (s : QueueState) (hwf : s.wf) :
    isQueueFull s = true ↔ (contents s).length = 99 := by
  obtain ⟨_, hf, hr⟩ := hwf
  rw [contents_length]
  simp only [isQueueFull, beq_iff_eq]
  unfold queueSize MAX_QUEUE at *; omega

theorem contents_length_le (s : QueueState) : (contents s).length ≤ 99 := by
  rw [contents_length]; unfold queueSize MAX_QUEUE; omega

theorem pushAll_accepted (qs : List UserQuery) (s : QueueState) (hwf : s.wf)
    (hacc : allAccepted qs s = true) :
    contents (pushAll qs s) = contents s ++ qs ∧ (pushAll qs s).wf
      ∧ (pushAll qs s).simulationComplete = s.simulationComplete := by
  induction qs generalizing s with
  | nil => simp [pushAll, hwf]
  | cons q rest ih =>
    simp only [allAccepted, Bool.and_eq_true, Bool.not_eq_true'] at hacc
    obtain ⟨h1, h2, h3, _⟩ := push_contents s q hwf hacc.1
    obtain ⟨i1, i2, i3⟩ := ih (pushQueryToQueue s q) h2 hacc.2
    refine ⟨?_, i2, ?_⟩
    · simp [pushAll, i1, h1]
    · simp [pushAll, i3, h3]

theorem allAccepted_iff (qs : List UserQuery) (s : QueueState) (hwf : s.wf) :
    allAccepted qs s = true ↔ (contents s).length + qs.length ≤ 99 := by
  induction qs generalizing s with
  | nil => simpa [allAccepted] using contents_length_le s
  | cons q rest ih =>
    simp only [allAccepted, Bool.and_eq_true, Bool.not_eq_true', List.length_cons]
    by_cases hfull : isQueueFull s = true
    · have := (isQueueFull_iff s hwf).mp hfull
      simp [hfull]; omega
    · have hfull2 : isQueueFull s = false := by simpa using hfull
      obtain ⟨h1, h2, _, _⟩ := push_contents s q hwf hfull2
      have hne : (contents s).length ≠ 99 := fun h => hfull ((isQueueFull_iff s hwf).mpr h)
      have hle := contents_length_le s
      rw [ih _ h2, h1]
      simp [hfull2]; omega

theorem pushAll_contents (qs : List UserQuery) (s : QueueState) (hwf : s.wf) :
    contents (pushAll qs s) = (contents s ++ qs).take 99 ∧ (pushAll qs s).wf
      ∧ (pushAll qs s).simulationComplete = s.simulationComplete := by
  induction qs generalizing s with
  | nil =>
    refine ⟨?_, hwf, rfl⟩
    simp [pushAll, List.take_of_length_le (contents_length_le s)]
  | cons q rest ih =>
    by_cases hfull : isQueueFull s = true
    · have hlen := (isQueueFull_iff s hwf).mp hfull
      have hpush : pushQueryToQueue s q = s := by simp [pushQueryToQueue, hfull]
      obtain ⟨i1, i2, i3⟩ := ih s hwf
      refine ⟨?_, by simpa [pushAll, hpush] using i2, by simpa [pushAll, hpush] using i3⟩
      simp only [pushAll, hpush, i1]
      rw [List.take_append_of_le_length (by omega), List.take_append_of_le_length (by omega)]
    · have hfull2 : isQueueFull s = false := by simpa using hfull
      obtain ⟨h1, h2, h3, _⟩ := push_contents s q hwf hfull2
      obtain ⟨i1, i2, i3⟩ := ih (pushQueryToQueue s q) h2
      refine ⟨?_, i2, ?_⟩
      · simp [pushAll, i1, h1]
      · simp [pushAll, i3, h3]

theorem pushLoop_eq (qs : List UserQuery) (s : QueueState) (c : Int)
    (h0 : 0 ≤ c) (hc : c + qs.length < 2147483648) :
    pushLoop qs (s, c) = (pushAll qs s, c + qs.length) := by
  induction qs generalizing s c with
  | nil => simp [pushLoop, pushAll]
  | cons q rest ih =>
    simp only [List.length_cons, Nat.cast_add, Nat.cast_one] at hc
    have hw : wrapInt (c + 1) = c + 1 := by unfold wrapInt; omega
    simp only [pushLoop, pushAll, hw]
    rw [ih _ _ (by omega) (by omega)]
    simp; omega

theorem initialQueue_wf : initialQueue.wf := by
  simp [QueueState.wf, initialQueue, MAX_QUEUE]

theorem initialQueue_contents : contents initialQueue = [] :=
  contents_of_empty _ initialQueue_wf rfl

theorem fifo_round_trip_aux (s : QueueState) (qs : List UserQuery) (hwf : s.wf)
    (hsc : s.simulationComplete = false) (hempty : s.queueFront = s.queueRear)
    (hacc : allAccepted qs s = true) :
    ∃ s1, popN qs.length (pushAll qs s) = some (qs, s1) ∧ s1.queueFront = s1.queueRear := by
  obtain ⟨h1, h2, h3⟩ := pushAll_accepted qs s hwf hacc
  rw [contents_of_empty s hwf hempty, List.nil_append] at h1
  obtain ⟨s1, hp, he, _, _⟩ :=
    popN_contents qs.length (pushAll qs s) h2 (by rw [h3, hsc]) (by rw [h1])
  exact ⟨s1, by rw [hp, h1], he⟩

/-- Claim C6. With `simulationComplete` false, pushing onto an empty queue any sequence of requests,
each accepted by `pushQueryToQueue`, and then calling `popQuery` as many times returns exactly
those requests in push order and leaves the queue empty. -/
theorem queue_fifo_round_trip (s : QueueState) (qs : List UserQuery) (hwf : s.wf)
    (hsc : s.simulationComplete = false) (hempty : s.queueFront = s.queueRear)
    (hacc : allAccepted qs s = true) :
    ∃ s1, popN qs.length (pushAll qs s) = some (qs, s1) ∧ s1.queueFront = s1.queueRear :=
  fifo_round_trip_aux s qs hwf hsc hempty hacc

theorem queue_fifo_round_trip_witness :
    ∃ s1, popN 3 (pushAll [⟨1, 0, 0, 0⟩, ⟨2, 0, 1, 0⟩, ⟨3, 1, 2, 4⟩]
        { initialQueue with queueFront := 98, queueRear := 98 })
      = some ([⟨1, 0, 0, 0⟩, ⟨2, 0, 1, 0⟩, ⟨3, 1, 2, 4⟩], s1) ∧ s1.queueFront = s1.queueRear :=
  queue_fifo_round_trip { initialQueue with queueFront := 98, queueRear := 98 }
    [⟨1, 0, 0, 0⟩, ⟨2, 0, 1, 0⟩, ⟨3, 1, 2, 4⟩]
    (by simp [QueueState.wf, initialQueue, MAX_QUEUE]) rfl rfl (by decide)

theorem popN_blocks (n : Nat) (s : QueueState) (hwf : s.wf) (hsc : s.simulationComplete = false)
    (hn : (contents s).length = n) : popN (n + 1) s = none := by
  induction n generalizing s with
  | zero =>
    have h0 : queueSize s = 0 := by simpa [contents, slice_length] using hn
    obtain ⟨_, hf, hr⟩ := hwf
    have : s.queueFront = s.queueRear := by unfold queueSize MAX_QUEUE at *; omega
    simp [popN, popQuery, isQueueEmpty, this, hsc]
  | succ n ih =>
    match hc : contents s with
    | [] => rw [hc] at hn; simp at hn
    | q :: rest =>
      obtain ⟨s1, hpop, hc1, hwf1, hsc1, _⟩ := pop_contents s hwf hsc q rest hc
      have hlen1 : (contents s1).length = n := by
        rw [hc] at hn; rw [hc1]; simpa using hn
      have := ih s1 hwf1 hsc1 hlen1
      rw [popN, hpop]
      simp only [this]

/-- Claim C7, amended. When at most 99 requests were ingested, the push loop of processInput
leaves all of them in the dispatch queue, so the number of queued requests equals queryCount,
the number of workers started; queryCount calls of popQuery return exactly the ingested
requests, each once, and leave the queue empty: no request is dropped. -/
theorem pushLoop_queues_all (qs : List UserQuery) (hlen : qs.length ≤ 99) :
    ∃ s s1, pushLoop qs (initialQueue, 0) = (s, (qs.length : Int)) ∧ contents s = qs
      ∧ queueSize s = qs.length
      ∧ popN qs.length s = some (qs, s1) ∧ s1.queueFront = s1.queueRear := by
  have hacc : allAccepted qs initialQueue = true := by
    rw [allAccepted_iff _ _ initialQueue_wf, initialQueue_contents]; simpa using hlen
  obtain ⟨s1, h1, h2⟩ := fifo_round_trip_aux initialQueue qs initialQueue_wf rfl rfl hacc
  obtain ⟨c1, _, _⟩ := pushAll_accepted qs initialQueue initialQueue_wf hacc
  rw [initialQueue_contents, List.nil_append] at c1
  refine ⟨pushAll qs initialQueue, s1, ?_, c1, ?_, h1, h2⟩
  · rw [pushLoop_eq _ _ _ (le_refl _) (by omega)]; simp
  · rw [← contents_length, c1]

theorem pushLoop_queues_all_witness :
    sampleSorted.length ≤ 99
      ∧ ∃ s s1, pushLoop sampleSorted (initialQueue, 0) = (s, (sampleSorted.length : Int))
          ∧ contents s = sampleSorted ∧ queueSize s = sampleSorted.length
          ∧ popN sampleSorted.length s = some (sampleSorted, s1)
          ∧ s1.queueFront = s1.queueRear :=
  ⟨by decide, pushLoop_queues_all sampleSorted (by decide)⟩

theorem pushLoop_hundred (qs : List UserQuery) (hlen : qs.length = 100) :
    ∃ s, pushLoop qs (initialQueue, 0) = (s, 100) ∧ contents s = qs.take 99
      ∧ queueSize s = 99 ∧ popN 100 s = none := by
  obtain ⟨c1, c2, c3⟩ := pushAll_contents qs initialQueue initialQueue_wf
  rw [initialQueue_contents, List.nil_append] at c1
  have hl : (contents (pushAll qs initialQueue)).length = 99 := by
    rw [c1, List.length_take]; omega
  refine ⟨pushAll qs initialQueue, ?_, c1, ?_, ?_⟩
  · rw [pushLoop_eq _ _ _ (le_refl _) (by omega), hlen]; rfl
  · rw [← contents_length]; exact hl
  · exact popN_blocks 99 _ c2 (by rw [c3]; rfl) hl

/-- Claim C7 at an input on which it fails. The 100 requests of hundredRequests fit queryArray,
yet the push loop of processInput leaves only the first 99 of them in the queue: the last one is
dropped while queryCount is 100, so the queued requests are not the ingested ones, their number
is not queryCount, and the 100 calls of popQuery made by the 100 workers do not all return. -/
theorem pushLoop_drops_hundredth :
    hundredRequests.length ≤ MAX_QUEUE
      ∧ ∃ s, pushLoop hundredRequests (initialQueue, 0) = (s, 100)
          ∧ queueSize s = 99 ∧ contents s = hundredRequests.take 99
          ∧ contents s ≠ hundredRequests ∧ popN 100 s = none := by
  have hlen : hundredRequests.length = 100 := by simp [hundredRequests]
  obtain ⟨s, h1, h2, h3, h4⟩ := pushLoop_hundred hundredRequests hlen
  refine ⟨by rw [hlen]; decide, s, h1, h3, h2, ?_, h4⟩
  intro h
  have := congrArg List.length h
  rw [contents_length, h3, hlen] at this
  omega

theorem compareQueries_spec (a b : UserQuery) (ha : a.ingested) (hb : b.ingested) :
    (a.reqTime < b.reqTime → compareQueries a b < 0)
      ∧ (a.reqTime = b.reqTime → a.fileOperation < b.fileOperation → compareQueries a b < 0)
      ∧ (compareQueries a b = 0 → a.reqTime = b.reqTime ∧ a.fileOperation = b.fileOperation)
      ∧ (compareQueries a b ≤ 0 →
          a.reqTime ≤ b.reqTime ∧ (a.reqTime = b.reqTime → a.fileOperation ≤ b.fileOperation)) := by
  obtain ⟨ha0, ⟨_, ha1⟩, hao⟩ := ha
  obtain ⟨hb0, ⟨_, hb1⟩, hbo⟩ := hb
  have hao2 : 0 ≤ a.fileOperation ∧ a.fileOperation ≤ 2 := by
    unfold READ_OP WRITE_OP DELETE_OP at hao; omega
  have hbo2 : 0 ≤ b.fileOperation ∧ b.fileOperation ≤ 2 := by
    unfold READ_OP WRITE_OP DELETE_OP at hbo; omega
  unfold compareQueries wrapInt
  refine ⟨?_, ?_, ?_, ?_⟩
  · intro h; rw [if_pos (by omega)]; omega
  · intro h1 h2; rw [if_neg (by omega), if_pos (by omega)]; omega
  · intro h
    by_cases h1 : a.reqTime = b.reqTime
    · by_cases h2 : a.fileOperation = b.fileOperation
      · exact ⟨h1, h2⟩
      · rw [if_neg (by omega), if_pos h2] at h; omega
    · rw [if_pos h1] at h; omega
  · intro h
    by_cases h1 : a.reqTime = b.reqTime
    · by_cases h2 : a.fileOperation = b.fileOperation
      · omega
      · rw [if_neg (by omega), if_pos h2] at h; omega
    · rw [if_pos h1] at h; omega

/-- Claim C5. For requests with non-negative scheduled times `compareQueries` is negative on a smaller
time, negative on equal times and an operation earlier in READ < WRITE < DELETE, and zero only on
equal time and operation; so when `processInput` has sorted the ingested requests with it
(`sorted` is any outcome of `qsort`: a rearrangement of the input in which no element compares
greater than a later one) and pushed them, the workers dequeue a smaller time before a larger one
and, at equal times, READ before WRITE before DELETE. -/
theorem dequeue_order (a b : UserQuery) (input sorted : List UserQuery)
    (ha : a.ingested) (hb : b.ingested)
    (hin : ∀ q ∈ input, q.ingested) (hlen : input.length ≤ MAX_QUEUE)
    (hperm : sorted.Perm input)
    (hsorted : sorted.Pairwise (fun x y => compareQueries x y ≤ 0)) :
    ((a.reqTime < b.reqTime → compareQueries a b < 0)
      ∧ (a.reqTime = b.reqTime → a.fileOperation < b.fileOperation → compareQueries a b < 0)
      ∧ (compareQueries a b = 0 → a.reqTime = b.reqTime ∧ a.fileOperation = b.fileOperation))
    ∧ ∃ deq s1, popN deq.length (pushLoop sorted (initialQueue, 0)).1 = some (deq, s1)
        ∧ deq = sorted.take 99 ∧ s1.queueFront = s1.queueRear
        ∧ ∀ (i j : Nat) (hi : i < deq.length) (hj : j < deq.length),
            (deq[i].reqTime < deq[j].reqTime → i < j)
            ∧ (deq[i].reqTime = deq[j].reqTime →
                deq[i].fileOperation < deq[j].fileOperation → i < j) := by
  obtain ⟨c1, c2, c3, _⟩ := compareQueries_spec a b ha hb
  refine ⟨⟨c1, c2, c3⟩, ?_⟩
  have hlen2 : sorted.length ≤ 100 := by rw [hperm.length_eq]; exact hlen
  obtain ⟨p1, p2, p3⟩ := pushAll_contents sorted initialQueue initialQueue_wf
  rw [initialQueue_contents, List.nil_append] at p1
  obtain ⟨s1, hp, he, _, _⟩ :=
    popN_contents (sorted.take 99).length (pushAll sorted initialQueue) p2 (by rw [p3]; rfl)
      (by rw [p1])
  refine ⟨sorted.take 99, s1, ?_, rfl, he, ?_⟩
  · rw [pushLoop_eq _ _ _ (le_refl _) (by omega)]
    simpa [p1] using hp
  · have hpw : (sorted.take 99).Pairwise (fun x y => compareQueries x y ≤ 0) :=
      hsorted.sublist (List.take_sublist _ _)
    have hmem : ∀ q ∈ sorted.take 99, q.ingested := fun q hq =>
      hin q (hperm.subset (List.mem_of_mem_take hq))
    rw [List.pairwise_iff_getElem] at hpw
    intro i j hi hj
    have hgi := hmem _ (List.getElem_mem hi)
    have hgj := hmem _ (List.getElem_mem hj)
    refine ⟨?_, ?_⟩
    · intro hlt
      by_contra hij
      rcases Nat.lt_or_ge j i with h | h
      · have := (compareQueries_spec _ _ hgj hgi).2.2.2 (hpw j i hj hi h)
        omega
      · have : i = j := by omega
        subst this; omega
    · intro heq hlt
      by_contra hij
      rcases Nat.lt_or_ge j i with h | h
      · have := (compareQueries_spec _ _ hgj hgi).2.2.2 (hpw j i hj hi h)
        have h2 := this.2 heq.symm
        omega
      · have : i = j := by omega
        subst this; omega

theorem dequeue_order_witness :
    (∀ q ∈ sampleInput, q.ingested) ∧ sampleSorted.Perm sampleInput
    ∧ sampleSorted.Pairwise (fun x y => compareQueries x y ≤ 0)
    ∧ compareQueries ⟨1, 0, DELETE_OP, 0⟩ ⟨2, 1, READ_OP, 3⟩ < 0
    ∧ ∃ deq s1, popN deq.length (pushLoop sampleSorted (initialQueue, 0)).1 = some (deq, s1)
        ∧ deq = sampleSorted.take 99 ∧ s1.queueFront = s1.queueRear
        ∧ ∀ (i j : Nat) (hi : i < deq.length) (hj : j < deq.length),
            (deq[i].reqTime < deq[j].reqTime → i < j)
            ∧ (deq[i].reqTime = deq[j].reqTime →
                deq[i].fileOperation < deq[j].fileOperation → i < j) :=
  ⟨by decide, by decide, by decide,
    (dequeue_order ⟨1, 0, DELETE_OP, 0⟩ ⟨2, 1, READ_OP, 3⟩ sampleInput sampleSorted
      (by decide) (by decide) (by decide) (by decide) (by decide) (by decide)).1.1 (by decide),
    (dequeue_order ⟨1, 0, DELETE_OP, 0⟩ ⟨2, 1, READ_OP, 3⟩ sampleInput sampleSorted
      (by decide) (by decide) (by decide) (by decide) (by decide) (by decide)).2⟩

/-! ## Per-file access control -/

theorem getFile_setFile_same (tbl : List FileStatus) (i : Int) (f g : FileStatus)
    (h : getFile tbl i = some f) : getFile (setFile tbl i g) i = some g := by
  unfold getFile at h ⊢
  split at h
  · rename_i h0
    rw [if_pos h0]
    have hlt : i.toNat < tbl.length := by
      by_contra hc
      rw [List.getElem?_eq_none (by omega)] at h
      exact absurd h (by simp)
    simp [setFile, List.getElem?_set, hlt]
  · exact absurd h (by simp)

theorem getFile_setFile_ne (tbl : List FileStatus) (i k : Int) (g : FileStatus)
    (hi : 0 ≤ i) (hk : k ≠ i) : getFile (setFile tbl i g) k = getFile tbl k := by
  unfold getFile
  split
  · rename_i h0
    have : i.toNat ≠ k.toNat := by omega
    simp [setFile, List.getElem?_set, this]
  · rfl

theorem getFile_nonneg (tbl : List FileStatus) (i : Int) (f : FileStatus)
    (h : getFile tbl i = some f) : 0 ≤ i := by
  unfold getFile at h
  split at h
  · assumption
  · exact absurd h (by simp)

theorem setFile_self (tbl : List FileStatus) (i : Int) (f : FileStatus)
    (h : getFile tbl i = some f) : setFile tbl i f = tbl := by
  unfold getFile at h
  split at h
  · unfold setFile
    apply List.ext_getElem? 
    intro n
    rw [List.getElem?_set]
    split
    · rename_i hn
      subst hn
      split
      · exact h.symm
      · rename_i hlt
        rw [List.getElem?_eq_none (by omega)]
    · rfl
  · exact absurd h (by simp)

theorem setFile_setFile (tbl : List FileStatus) (i : Int) (f g : FileStatus) :
    setFile (setFile tbl i f) i g = setFile tbl i g := by
  simp [setFile, List.set_set]

theorem checkCond_eq (cfg : Config) (op : Op) (tbl : List FileStatus) (q : UserQuery)
    (f : FileStatus) (h : getFile tbl q.fileID = some f) :
    checkCond cfg op tbl q = some (validFile cfg q f) := by
  cases op <;>
    simp only [checkCond, checkCondForRead, checkCondForWrite, checkCondForDelete, h, validFile] <;>
    by_cases h1 : q.fileID ≥ cfg.fileCount <;> simp [h1] <;>
    cases f.isPresent <;> cases f.deleteInProgress <;> simp

theorem validFile_decWaiting (cfg : Config) (q : UserQuery) (f : FileStatus) :
    validFile cfg q (decWaiting f) = validFile cfg q f := rfl

theorem admission_eq (cfg : Config) (op : Op) (q : UserQuery) (env : Env)
    (tbl : List FileStatus) (f : FileStatus) (h : getFile tbl q.fileID = some f) :
    admission cfg op q q.fileID env tbl
      = some ((fileAdmission cfg op q env f).1,
              setFile tbl q.fileID (fileAdmission cfg op q env f).2) := by
  unfold admission fileAdmission
  rw [h, checkCond_eq cfg op tbl q f h]
  by_cases h1 : checkResponseTime cfg env.tCheck q = true
  · cases h2 : validFile cfg q f <;> simp [h1]
  · simp [h1]

theorem accessTest_eq (cfg : Config) (op : Op) (q : UserQuery) (d : Int) (env : Env)
    (tbl : List FileStatus) (f : FileStatus) (h : getFile tbl q.fileID = some f) :
    accessTest cfg op q q.fileID d env tbl
      = some ((fileAccessTest cfg op q d env f).1,
              setFile tbl q.fileID (fileAccessTest cfg op q d env f).2) := by
  unfold accessTest fileAccessTest
  rw [h]
  by_cases h1 : waitCond cfg op f = true
  · simp [h1, setFile_self tbl _ f h]
  · simp [h1, admission_eq cfg op q env tbl f h]

theorem settleTest_eq (cfg : Config) (op : Op) (q : UserQuery) (env : Env)
    (tbl : List FileStatus) (f : FileStatus) (h : getFile tbl q.fileID = some f) :
    settleTest cfg op q q.fileID env tbl
      = some ((fileSettleTest cfg op q env f).1,
              setFile tbl q.fileID (fileSettleTest cfg op q env f).2) := by
  unfold settleTest fileSettleTest
  by_cases h1 : env.tSettle ≥ wrapInt (q.reqTime + 1)
  · simp [h1, accessTest_eq cfg op q _ env tbl f h]
  · simp [h1, setFile_self tbl _ f h]

theorem segment_eq (cfg : Config) (op : Op) (q : UserQuery) (pc : Pc) (env : Env)
    (tbl : List FileStatus) (f : FileStatus) (h : getFile tbl q.fileID = some f) :
    segment cfg op q q.fileID pc env tbl
      = (fileSegment cfg op q pc env f).map (fun r => (r.1, setFile tbl q.fileID r.2)) := by
  unfold segment fileSegment
  rw [h]
  cases pc with
  | entry =>
    simp only [Option.map_some']
    rw [settleTest_eq cfg op q env _ (incWaiting f) (getFile_setFile_same tbl _ f _ h),
      setFile_setFile]
  | settle => simp only [Option.map_some']; rw [settleTest_eq cfg op q env tbl f h]
  | waiting d =>
    simp only [Option.map_some']
    by_cases h1 : env.timedOut = true
    · simp [h1, admission_eq cfg op q env tbl f h]
    · simp [h1, accessTest_eq cfg op q d env tbl f h]
  | executing => simp
  | done r => simp

theorem segment_none (cfg : Config) (op : Op) (q : UserQuery) (fid : Int) (pc : Pc) (env : Env)
    (tbl : List FileStatus) (h : getFile tbl fid = none) :
    segment cfg op q fid pc env tbl = none := by
  unfold segment; rw [h]

theorem fileOk_decWaiting {cfg : Config} {r w d : Nat} {f : FileStatus} (h : FileOk cfg r w d f) :
    FileOk cfg r w d (decWaiting f) :=
  ⟨h.readers, h.writers, h.deleters, h.total, h.cap, h.excl, h.gone⟩

theorem fileOk_incWaiting {cfg : Config} {r w d : Nat} {f : FileStatus} (h : FileOk cfg r w d f) :
    FileOk cfg r w d (incWaiting f) :=
  ⟨h.readers, h.writers, h.deleters, h.total, h.cap, h.excl, h.gone⟩

/-- The admission predicate of an operation, the negation of its wait-loop condition. -/
theorem waitCond_false (cfg : Config) (op : Op) (f : FileStatus) (h : waitCond cfg op f = false) :
    f.currentUserCount < cfg.maxUsers
      ∧ (op ≠ Op.read → f.writeInProgress = false)
      ∧ (op = Op.delete → f.ReaderCount ≤ 0) := by
  cases op <;>
    simp [waitCond, waitForAccessReadCond, waitForAccessWriteCond, waitForAccessDeleteCond] at h ⊢
  · exact h
  · exact h
  · exact ⟨h.1.1, h.1.2, h.2⟩

theorem validFile_true (cfg : Config) (q : UserQuery) (f : FileStatus)
    (h : validFile cfg q f = true) :
    q.fileID < cfg.fileCount ∧ f.isPresent = true ∧ f.deleteInProgress = false := by
  simpa [validFile, and_assoc] using h

theorem startOp_ok (cfg : Config) (hmu : cfg.maxUsers < 2147483648) (op : Op) (f : FileStatus)
    (r w d r1 w1 d1 : Nat) (hok : FileOk cfg r w d f) (hw : waitCond cfg op f = false)
    (hp : f.isPresent = true) (hd : f.deleteInProgress = false)
    (hr : (r1 : Int) = r + bit (decide (op = Op.read)))
    (hw1 : (w1 : Int) = w + bit (decide (op = Op.write)))
    (hd1 : (d1 : Int) = d + bit (decide (op = Op.delete))) :
    FileOk cfg r1 w1 d1 (startOp op f) := by
  obtain ⟨c1, c2, c3⟩ := waitCond_false cfg op f hw
  obtain ⟨h1, h2, h3, h4, h5, h6, h7⟩ := hok
  obtain ⟨p, wr, dl, rc, cc, wt⟩ := f
  simp only at *
  subst hp hd
  have hcc : wrapInt (cc + 1) = cc + 1 := by
    cases wr <;> simp [bit] at h2 h4 <;> unfold wrapInt <;> omega
  have hrc : wrapInt (rc + 1) = rc + 1 := by
    cases wr <;> simp [bit] at h2 h4 <;> unfold wrapInt <;> omega
  cases op
  · simp only [startOp, startRead, hcc, hrc]
    constructor <;> simp [bit] at * <;> omega
  · have := c2 (by simp)
    subst this
    simp only [startOp, startWrite, hcc]
    constructor <;> simp [bit] at * <;> omega
  · have := c2 (by simp)
    subst this
    have := c3 rfl
    simp only [startOp, startDelete, hcc]
    constructor <;> simp [bit] at * <;> omega

theorem finishOp_ok (cfg : Config) (hmu : cfg.maxUsers < 2147483648) (op : Op) (f : FileStatus)
    (r w d r1 w1 d1 : Nat) (hok : FileOk cfg r w d f)
    (hr : (r1 : Int) + bit (decide (op = Op.read)) = r)
    (hw1 : (w1 : Int) + bit (decide (op = Op.write)) = w)
    (hd1 : (d1 : Int) + bit (decide (op = Op.delete)) = d) :
    FileOk cfg r1 w1 d1 (finishOp op f) := by
  obtain ⟨h1, h2, h3, h4, h5, h6, h7⟩ := hok
  obtain ⟨p, wr, dl, rc, cc, wt⟩ := f
  simp only at *
  have hcc : 1 ≤ cc → wrapInt (cc - 1) = cc - 1 := by
    intro _; unfold wrapInt; omega
  have hrc : 1 ≤ rc → wrapInt (rc - 1) = rc - 1 := by
    intro _; cases wr <;> cases dl <;> simp [bit] at h4 <;> unfold wrapInt <;> omega
  cases op
  · have h1r : 1 ≤ rc := by simp [bit] at hr; omega
    have h1c : 1 ≤ cc := by cases wr <;> cases dl <;> simp [bit] at h4 <;> omega
    have hp : p = true := by
      cases p
      · have := h7 rfl; omega
      · rfl
    subst hp
    simp only [finishOp, finishRead, hcc h1c, hrc h1r]
    clear hcc hrc h7
    constructor <;> cases wr <;> cases dl <;> simp [bit] at * <;> omega
  · have hwr : wr = true := by
      cases wr
      · simp [bit] at h2 hw1; omega
      · rfl
    subst hwr
    have h1c : 1 ≤ cc := by cases dl <;> simp [bit] at h4 <;> omega
    have hp : p = true := by
      cases p
      · have := h7 rfl; omega
      · rfl
    subst hp
    simp only [finishOp, completeWrite, hcc h1c]
    clear hcc hrc h7
    constructor <;> cases dl <;> simp [bit] at * <;> omega
  · have hdl : dl = true := by
      cases dl
      · simp [bit] at h3 hd1; omega
      · rfl
    subst hdl
    have := h6 rfl
    obtain ⟨e1, e2⟩ := this
    subst e2
    have h1c : 1 ≤ cc := by simp [bit] at h4; omega
    simp only [finishOp, completeDelete, hcc h1c]
    clear hcc hrc h7 h6
    constructor <;> simp [bit] at * <;> omega

theorem sameCore_refl (f : FileStatus) : sameCore f f := ⟨rfl, rfl, rfl, rfl, rfl⟩

theorem sameCore_inc (f : FileStatus) : sameCore f (incWaiting f) := ⟨rfl, rfl, rfl, rfl, rfl⟩

theorem sameCore_dec (f : FileStatus) : sameCore f (decWaiting f) := ⟨rfl, rfl, rfl, rfl, rfl⟩

theorem sameCore_trans {f g h : FileStatus} (h1 : sameCore f g) (h2 : sameCore g h) :
    sameCore f h := by
  obtain ⟨a1, a2, a3, a4, a5⟩ := h1
  obtain ⟨b1, b2, b3, b4, b5⟩ := h2
  exact ⟨b1.trans a1, b2.trans a2, b3.trans a3, b4.trans a4, b5.trans a5⟩

theorem fileOk_sameCore {cfg : Config} {r w d : Nat} {f g : FileStatus} (h : FileOk cfg r w d f)
    (hs : sameCore f g) : FileOk cfg r w d g := by
  obtain ⟨a1, a2, a3, a4, a5⟩ := hs
  obtain ⟨h1, h2, h3, h4, h5, h6, h7⟩ := h
  constructor
  · rw [a4]; exact h1
  · rw [a2]; exact h2
  · rw [a3]; exact h3
  · rw [a5, a4, a2, a3]; exact h4
  · rw [a5]; exact h5
  · rw [a3, a4, a2]; exact h6
  · rw [a1, a5]; exact h7

theorem waitCond_sameCore (cfg : Config) (op : Op) {f g : FileStatus} (hs : sameCore f g) :
    waitCond cfg op g = waitCond cfg op f := by
  obtain ⟨a1, a2, a3, a4, a5⟩ := hs
  cases op <;>
    simp [waitCond, waitForAccessReadCond, waitForAccessWriteCond, waitForAccessDeleteCond,
      a2, a4, a5]

theorem validFile_sameCore (cfg : Config) (q : UserQuery) {f g : FileStatus}
    (hs : sameCore f g) : validFile cfg q g = validFile cfg q f := by
  obtain ⟨a1, a2, a3, a4, a5⟩ := hs
  simp [validFile, a1, a3]

theorem fileAdmission_effect (cfg : Config) (op : Op) (q : UserQuery) (env : Env) (pc : Pc)
    (f g : FileStatus) (hpc : pc ≠ Pc.executing) (hs : sameCore f g)
    (hw : waitCond cfg op f = false ∨ ∃ d, pc = Pc.waiting d ∧ env.timedOut = true)
    (hset : pc = Pc.entry ∨ pc = Pc.settle → wrapInt (q.reqTime + 1) ≤ env.tSettle) :
    Effect cfg op q env pc f (fileAdmission cfg op q env g).1 (fileAdmission cfg op q env g).2 := by
  unfold fileAdmission
  cases h1 : checkResponseTime cfg env.tCheck q
  · simp only [Bool.not_false, if_true]
    exact Effect.stay pc _ f _ hpc (by simp) (by simp) (sameCore_trans hs (sameCore_dec g))
      (by intro d hd; simp at hd)
  · cases h2 : validFile cfg q g
    · simp only [Bool.not_true, Bool.false_eq_true, if_false]
      exact Effect.stay pc _ f _ hpc (by simp) (by simp) (sameCore_trans hs (sameCore_dec g))
        (by intro d hd; simp at hd)
    · simp only [Bool.not_true, Bool.false_eq_true, if_false, if_true]
      exact Effect.enter pc f (decWaiting g) hpc (sameCore_trans hs (sameCore_dec g)) hw
        (by rw [← validFile_sameCore cfg q hs]; exact h2) h1 hset

theorem fileAccessTest_effect (cfg : Config) (op : Op) (q : UserQuery) (env : Env) (pc : Pc)
    (d : Int) (f g : FileStatus) (hpc : pc ≠ Pc.executing) (hs : sameCore f g)
    (hd : pc = Pc.waiting d ∨
          ((pc = Pc.entry ∨ pc = Pc.settle) ∧ wrapInt (q.reqTime + 1) ≤ env.tSettle
            ∧ d = env.tStart + wrapInt (cfg.maxWaitTime - 1)))
    (hset : pc = Pc.entry ∨ pc = Pc.settle → wrapInt (q.reqTime + 1) ≤ env.tSettle) :
    Effect cfg op q env pc f (fileAccessTest cfg op q d env g).1
      (fileAccessTest cfg op q d env g).2 := by
  unfold fileAccessTest
  cases h1 : waitCond cfg op g
  · simp only [Bool.false_eq_true, if_false]
    exact fileAdmission_effect cfg op q env pc f g hpc hs
      (Or.inl (by rw [← waitCond_sameCore cfg op hs]; exact h1)) hset
  · simp only [if_true]
    exact Effect.stay pc _ f _ hpc (by simp) (by simp) hs
      (by intro d1 hd1; simp only [Pc.waiting.injEq] at hd1; subst hd1; exact hd)

theorem fileSettleTest_effect (cfg : Config) (op : Op) (q : UserQuery) (env : Env) (pc : Pc)
    (f g : FileStatus) (hpc : pc = Pc.entry ∨ pc = Pc.settle) (hs : sameCore f g) :
    Effect cfg op q env pc f (fileSettleTest cfg op q env g).1
      (fileSettleTest cfg op q env g).2 := by
  have hne : pc ≠ Pc.executing := by rcases hpc with h | h <;> simp [h]
  unfold fileSettleTest
  by_cases h1 : env.tSettle ≥ wrapInt (q.reqTime + 1)
  · simp only [h1, decide_True, Bool.not_true, Bool.false_eq_true, if_false]
    exact fileAccessTest_effect cfg op q env pc _ f g hne hs (Or.inr ⟨hpc, h1, rfl⟩) (fun _ => h1)
  · simp only [h1, decide_False, Bool.not_false, if_true]
    exact Effect.stay pc _ f _ hne (by simp) (by simp) hs (by intro d hd; simp at hd)

theorem fileSegment_effect (cfg : Config) (op : Op) (q : UserQuery) (env : Env) (pc pc1 : Pc)
    (f f1 : FileStatus) (hseg : fileSegment cfg op q pc env f = some (pc1, f1)) :
    Effect cfg op q env pc f pc1 f1 := by
  cases pc with
  | entry =>
    simp only [fileSegment, Option.some.injEq] at hseg
    have := fileSettleTest_effect cfg op q env Pc.entry f (incWaiting f) (Or.inl rfl)
      (sameCore_inc f)
    rw [hseg] at this; exact this
  | settle =>
    simp only [fileSegment, Option.some.injEq] at hseg
    have := fileSettleTest_effect cfg op q env Pc.settle f f (Or.inr rfl) (sameCore_refl f)
    rw [hseg] at this; exact this
  | waiting d =>
    simp only [fileSegment, Option.some.injEq] at hseg
    by_cases hto : env.timedOut = true
    · rw [if_pos hto] at hseg
      have := fileAdmission_effect cfg op q env (Pc.waiting d) f f (by simp) (sameCore_refl f)
        (Or.inr ⟨d, rfl, hto⟩) (by intro h; rcases h with h | h <;> simp at h)
      rw [hseg] at this; exact this
    · rw [if_neg hto] at hseg
      have := fileAccessTest_effect cfg op q env (Pc.waiting d) d f f (by simp) (sameCore_refl f)
        (Or.inl rfl) (by intro h; rcases h with h | h <;> simp at h)
      rw [hseg] at this; exact this
  | executing =>
    simp only [fileSegment, Option.some.injEq, Prod.mk.injEq] at hseg
    obtain ⟨h1, h2⟩ := hseg
    subst h1 h2
    exact Effect.finish f
  | done r => simp [fileSegment] at hseg

theorem executeOperationKind_eq (x : Int) (op : Op) (h : executeOperationKind x = some op) :
    x = opCode op := by
  unfold executeOperationKind at h
  split_ifs at h with h1 h2 h3 <;> simp at h <;> subst h <;> simp [opCode, *]

theorem opCode_eq (op : Op) :
    (opCode op = READ_OP ↔ op = Op.read) ∧ (opCode op = WRITE_OP ↔ op = Op.write)
      ∧ (opCode op = DELETE_OP ↔ op = Op.delete) := by
  cases op <;> simp [opCode, READ_OP, WRITE_OP, DELETE_OP]

theorem envLegal_spec (clock : Int) (pc : Pc) (env : Env) (h : envLegal clock pc env = true) :
    clock ≤ env.tSettle ∧ env.tSettle ≤ env.tStart ∧ env.tStart ≤ env.tCheck
      ∧ env.tCheck < 2147483648
      ∧ (∀ d, pc = Pc.waiting d → env.timedOut = true → d ≤ env.tCheck) := by
  unfold envLegal at h
  simp only [Bool.and_eq_true, decide_eq_true_eq] at h
  obtain ⟨⟨⟨⟨h1, h2⟩, h3⟩, h4⟩, h5⟩ := h
  refine ⟨h1, h2, h3, h4, ?_⟩
  intro d hd hto
  subst hd
  simpa [hto] using h5

/-- A timed-out wait is followed by a failed deadline check. -/
theorem timedOut_check (cfg : Config) (hcfg : cfg.ok) (t : Thread) (env : Env)
    (htm : ThreadTimed cfg t) (hq : t.query.timeOk)
    (hleg : envLegal t.seen t.pc env = true) (d : Int)
    (hpc : t.pc = Pc.waiting d) (hto : env.timedOut = true) :
    cfg.maxWaitTime ≤ env.tCheck - t.query.reqTime
      ∧ checkResponseTime cfg env.tCheck t.query = false := by
  obtain ⟨l1, l2, l3, l4, l5⟩ := envLegal_spec _ _ _ hleg
  have hd := l5 d hpc hto
  obtain ⟨t1, t2⟩ := hq
  obtain ⟨w1, w2⟩ := htm d hpc
  obtain ⟨_, ⟨m1, m2⟩⟩ := hcfg
  have hw : wrapInt (t.query.reqTime + 1) = t.query.reqTime + 1 := by unfold wrapInt; omega
  rw [hw] at w1 w2
  have hmw : cfg.maxWaitTime ≤ env.tCheck - t.query.reqTime := by
    unfold wrapInt at w2; omega
  refine ⟨hmw, ?_⟩
  unfold checkResponseTime
  rw [if_pos]
  unfold wrapInt
  omega

theorem countP_set_add {α : Type} (p : α → Bool) (l : List α) (i : Nat) (t a : α)
    (h : l[i]? = some t) :
    List.countP p (l.set i a) + (if p t then 1 else 0) = List.countP p l + (if p a then 1 else 0) := by
  induction l generalizing i with
  | nil => simp at h
  | cons x xs ih =>
    cases i with
    | zero =>
      simp only [List.getElem?_cons_zero, Option.some.injEq] at h
      subst h
      simp only [List.set_cons_zero, List.countP_cons]
      omega
    | succ n =>
      simp only [List.getElem?_cons_succ] at h
      have := ih n h
      simp only [List.set_cons_succ, List.countP_cons]
      omega

theorem execCount_set (opc k : Int) (l : List Thread) (i : Nat) (t a : Thread)
    (h : l[i]? = some t) :
    execCount opc k (l.set i a) + (if executingOn opc k t then 1 else 0)
      = execCount opc k l + (if executingOn opc k a then 1 else 0) :=
  countP_set_add _ l i t a h

theorem sysStep_cases (cfg : Config) (i : Nat) (env : Env) (s s1 : Sys)
    (h : sysStep cfg i env s = some s1) :
    ∃ t, s.threads[i]? = some t ∧ envLegal t.seen t.pc env = true
      ∧ ((executeOperationKind t.query.fileOperation = none ∧ t.pc = Pc.entry
            ∧ s1 = { s with threads := s.threads.set i { t with pc := Pc.done false } })
          ∨ ∃ op f pc1 f1, executeOperationKind t.query.fileOperation = some op
              ∧ getFile s.fileStatus t.query.fileID = some f
              ∧ fileSegment cfg op t.query t.pc env f = some (pc1, f1)
              ∧ s1 = { fileStatus := setFile s.fileStatus t.query.fileID f1
                       threads := s.threads.set i { t with pc := pc1, seen := env.tCheck } })
    := by
  unfold sysStep at h
  cases ht : s.threads[i]? with
  | none => simp [ht] at h
  | some t =>
    simp only [ht] at h
    cases hleg : envLegal t.seen t.pc env with
    | false => simp [hleg] at h
    | true =>
      simp only [hleg, Bool.not_true, Bool.false_eq_true, if_false] at h
      refine ⟨t, rfl, hleg, ?_⟩
      cases hk : executeOperationKind t.query.fileOperation with
      | none =>
        simp only [hk] at h
        split_ifs at h with hpc
        simp only [Option.some.injEq] at h
        exact Or.inl ⟨rfl, hpc, h.symm⟩
      | some op =>
        simp only [hk] at h
        cases hg : getFile s.fileStatus t.query.fileID with
        | none => simp [segment_none _ _ _ _ _ _ _ hg] at h
        | some f =>
          rw [segment_eq cfg op t.query t.pc env s.fileStatus f hg] at h
          cases hs : fileSegment cfg op t.query t.pc env f with
          | none => simp [hs] at h
          | some r =>
            obtain ⟨pc1, f1⟩ := r
            simp only [hs, Option.map_some', Option.some.injEq] at h
            exact Or.inr ⟨op, f, pc1, f1, rfl, rfl, hs, h.symm⟩

theorem execCount_set_same (opc k : Int) (l : List Thread) (i : Nat) (t a : Thread)
    (h : l[i]? = some t) (h1 : executingOn opc k t = false) (h2 : executingOn opc k a = false) :
    execCount opc k (l.set i a) = execCount opc k l := by
  have := execCount_set opc k l i t a h
  simp only [h1, h2, Bool.false_eq_true, if_false] at this
  omega

theorem mem_of_getElem?_eq {α : Type} (l : List α) (i : Nat) (a : α) (h : l[i]? = some a) :
    a ∈ l := by
  rw [List.getElem?_eq_some] at h
  obtain ⟨hi, rfl⟩ := h
  exact List.getElem_mem hi

/-- The timing facts of waiting workers survive every step, whatever the requests are. -/
theorem sysStep_timed (cfg : Config) (s s1 : Sys) (i : Nat) (env : Env)
    (htm : SysTimed cfg s) (h : sysStep cfg i env s = some s1) : SysTimed cfg s1 := by
  obtain ⟨t, ht, hleg, hcase⟩ := sysStep_cases cfg i env s s1 h
  have htt := htm t (mem_of_getElem?_eq _ _ _ ht)
  obtain ⟨l1, l2, l3, l4, l5⟩ := envLegal_spec _ _ _ hleg
  obtain ⟨q, pc, seen⟩ := t
  rcases hcase with ⟨hk, hpc, rfl⟩ | ⟨op, f, pc1, f1, hk, hg, hseg, rfl⟩
  · intro u hu
    rcases List.mem_or_eq_of_mem_set hu with hu | hu
    · exact htm u hu
    · subst hu
      intro d hd; simp at hd
  · simp only at hk hg hseg l1 l5 hleg
    have heff := fileSegment_effect cfg op q env pc pc1 f f1 hseg
    intro u hu
    rcases List.mem_or_eq_of_mem_set hu with hu | hu
    · exact htm u hu
    · subst hu
      intro d hd
      simp only at hd
      cases heff with
      | stay _ _ _ _ e1 e2 e3 e4 e5 =>
        rcases e5 d hd with e | ⟨_, e6, e7⟩
        · have := htt d e
          exact ⟨by simp only at this ⊢; omega, this.2⟩
        · exact ⟨by simp only; omega, by simp only; omega⟩
      | enter _ _ g e1 e2 e3 e4 e5 e6 => simp at hd
      | finish _ => simp at hd

theorem sysStep_ok (cfg : Config) (hcfg : cfg.ok) (s s1 : Sys) (i : Nat) (env : Env)
    (hok : SysOk cfg s) (h : sysStep cfg i env s = some s1) : SysOk cfg s1 := by
  have htimed := sysStep_timed cfg s s1 i env hok.timed h
  obtain ⟨t, ht, hleg, hcase⟩ := sysStep_cases cfg i env s s1 h
  have htok := hok.threads t (mem_of_getElem?_eq _ _ _ ht)
  have htt := hok.timed t (mem_of_getElem?_eq _ _ _ ht)
  obtain ⟨l1, l2, l3, l4, l5⟩ := envLegal_spec _ _ _ hleg
  obtain ⟨q, pc, seen⟩ := t
  rcases hcase with ⟨hk, hpc, rfl⟩ | ⟨op, f, pc1, f1, hk, hg, hseg, rfl⟩
  · simp only at hk hpc
    refine ⟨htimed, ?_, ?_⟩
    · intro u hu
      rcases List.mem_or_eq_of_mem_set hu with hu | hu
      · exact hok.threads u hu
      · subst hu
        exact ⟨htok.1, by intro hd; simp at hd⟩
    · intro k g hgk
      have hcnt : ∀ opc, execCount opc k (s.threads.set i ⟨q, Pc.done false, seen⟩)
          = execCount opc k s.threads := fun opc =>
        execCount_set_same opc k _ i ⟨q, pc, seen⟩ _ ht (by simp [executingOn, hpc])
          (by simp [executingOn])
      simp only [hcnt]
      exact hok.files k g hgk
  · simp only at hk hg hseg l5 hleg
    have heff := fileSegment_effect cfg op q env pc pc1 f f1 hseg
    have hfid := getFile_nonneg _ _ _ hg
    have hcode := executeOperationKind_eq _ _ hk
    refine ⟨htimed, ?_, ?_⟩
    · intro u hu
      rcases List.mem_or_eq_of_mem_set hu with hu | hu
      · exact hok.threads u hu
      · subst hu
        exact ⟨htok.1, fun _ => ⟨op, hk⟩⟩
    · intro k g hgk
      simp only at hgk ⊢
      by_cases hkf : k = q.fileID
      · subst hkf
        rw [getFile_setFile_same _ _ f _ hg] at hgk
        simp only [Option.some.injEq] at hgk
        subst hgk
        have hfok := hok.files _ f hg
        have hr := execCount_set READ_OP q.fileID s.threads i ⟨q, pc, seen⟩ ⟨q, pc1, env.tCheck⟩ ht
        have hw := execCount_set WRITE_OP q.fileID s.threads i ⟨q, pc, seen⟩ ⟨q, pc1, env.tCheck⟩ ht
        have hd := execCount_set DELETE_OP q.fileID s.threads i ⟨q, pc, seen⟩ ⟨q, pc1, env.tCheck⟩ ht
        cases heff with
        | stay _ _ _ _ e1 e2 e3 e4 e5 =>
          simp only [executingOn, e1, e2, decide_False, Bool.and_false, Bool.false_eq_true,
            if_false, Nat.add_zero] at hr hw hd
          rw [hr, hw, hd]
          exact fileOk_sameCore hfok e4
        | enter _ _ g e1 e2 e3 e4 e5 e6 =>
          simp only [executingOn, e1, decide_False, decide_True, Bool.and_false, Bool.and_true,
            Bool.true_and, Bool.false_eq_true, if_false, Nat.add_zero, hcode] at hr hw hd
          have hwc : waitCond cfg op f = false := by
            rcases e3 with e | ⟨d, e7, e8⟩
            · exact e
            · have := (timedOut_check cfg hcfg ⟨q, pc, seen⟩ env htt htok.1 hleg d e7 e8).2
              simp only at this
              rw [this] at e5
              exact absurd e5 (by simp)
          obtain ⟨v1, v2, v3⟩ := validFile_true cfg q f e4
          obtain ⟨a1, a2, a3, a4, a5⟩ := e2
          apply startOp_ok cfg hcfg.1.2 op g _ _ _ _ _ _ (fileOk_sameCore hfok ⟨a1, a2, a3, a4, a5⟩)
            (by rw [waitCond_sameCore cfg op ⟨a1, a2, a3, a4, a5⟩]; exact hwc)
            (by rw [a1]; exact v2) (by rw [a3]; exact v3)
          · cases op <;> simp [opCode, READ_OP, WRITE_OP, DELETE_OP, bit] at hr ⊢ <;> omega
          · cases op <;> simp [opCode, READ_OP, WRITE_OP, DELETE_OP, bit] at hw ⊢ <;> omega
          · cases op <;> simp [opCode, READ_OP, WRITE_OP, DELETE_OP, bit] at hd ⊢ <;> omega
        | finish _ =>
          simp only [executingOn, decide_True, Bool.and_true, Bool.true_and, decide_False,
            Bool.false_eq_true, if_false, Nat.add_zero, hcode, reduceCtorEq] at hr hw hd
          apply finishOp_ok cfg hcfg.1.2 op f _ _ _ _ _ _ hfok
          · cases op <;> simp [opCode, READ_OP, WRITE_OP, DELETE_OP, bit] at hr ⊢ <;> omega
          · cases op <;> simp [opCode, READ_OP, WRITE_OP, DELETE_OP, bit] at hw ⊢ <;> omega
          · cases op <;> simp [opCode, READ_OP, WRITE_OP, DELETE_OP, bit] at hd ⊢ <;> omega
      · rw [getFile_setFile_ne _ _ _ _ hfid hkf] at hgk
        have hne : q.fileID ≠ k := fun e => hkf e.symm
        have hcnt : ∀ opc, execCount opc k (s.threads.set i ⟨q, pc1, env.tCheck⟩)
            = execCount opc k s.threads := fun opc =>
          execCount_set_same opc k _ i ⟨q, pc, seen⟩ _ ht (by simp [executingOn, hne])
            (by simp [executingOn, hne])
        simp only [hcnt]
        exact hok.files k g hgk

theorem initSys_timed (cfg : Config) (queries : List UserQuery) : SysTimed cfg (initSys queries) := by
  intro t ht d hd
  simp only [initSys, List.mem_map] at ht
  obtain ⟨q, _, rfl⟩ := ht
  simp at hd

theorem execCount_init (opc k : Int) (queries : List UserQuery) :
    execCount opc k (initSys queries).threads = 0 := by
  unfold execCount
  rw [List.countP_eq_zero]
  intro t ht
  simp only [initSys, List.mem_map] at ht
  obtain ⟨q, _, rfl⟩ := ht
  simp [executingOn]

theorem getFile_reset (k : Int) (f : FileStatus) (h : getFile resetFileStatus k = some f) :
    f = resetFile := by
  unfold getFile at h
  split at h
  · unfold resetFileStatus at h
    rw [List.getElem?_replicate] at h
    split at h
    · exact (Option.some.inj h).symm
    · exact absurd h (by simp)
  · exact absurd h (by simp)

theorem initSys_ok (cfg : Config) (queries : List UserQuery) (hq : ∀ q ∈ queries, q.timeOk) :
    SysOk cfg (initSys queries) := by
  refine ⟨initSys_timed cfg queries, ?_, ?_⟩
  · intro t ht
    simp only [initSys, List.mem_map] at ht
    obtain ⟨q, hqm, rfl⟩ := ht
    exact ⟨hq q hqm, by intro h; simp at h⟩
  · intro k f hf
    have := getFile_reset k f hf
    subst this
    simp only [execCount_init]
    constructor <;> simp [resetFile, bit]

theorem reachable_timed (cfg : Config) (queries : List UserQuery) (s : Sys)
    (hr : Reachable cfg queries s) : SysTimed cfg s := by
  induction hr with
  | init => exact initSys_timed cfg queries
  | step s s1 i env _ hstep ih => exact sysStep_timed cfg s s1 i env ih hstep

theorem reachable_ok (cfg : Config) (hcfg : cfg.ok) (queries : List UserQuery)
    (hq : ∀ q ∈ queries, q.timeOk) (s : Sys) (hr : Reachable cfg queries s) : SysOk cfg s := by
  induction hr with
  | init => exact initSys_ok cfg queries hq
  | step s s1 i env _ hstep ih => exact sysStep_ok cfg hcfg s s1 i env ih hstep

/-- What one step of worker `i` does to that worker and to the array. -/
theorem sysStep_effect (cfg : Config) (s s1 : Sys) (i : Nat) (env : Env) (t t1 : Thread)
    (h : sysStep cfg i env s = some s1) (ht : s.threads[i]? = some t)
    (ht1 : s1.threads[i]? = some t1) :
    t1.query = t.query ∧ envLegal t.seen t.pc env = true
      ∧ (∀ j, j ≠ i → s1.threads[j]? = s.threads[j]?)
      ∧ ((executeOperationKind t.query.fileOperation = none ∧ t.pc = Pc.entry
            ∧ t1.pc = Pc.done false ∧ s1.fileStatus = s.fileStatus)
          ∨ ∃ op f f1, executeOperationKind t.query.fileOperation = some op
              ∧ getFile s.fileStatus t.query.fileID = some f
              ∧ getFile s1.fileStatus t.query.fileID = some f1
              ∧ Effect cfg op t.query env t.pc f t1.pc f1
              ∧ fileSegment cfg op t.query t.pc env f = some (t1.pc, f1)
              ∧ (∀ r, t.pc ≠ Pc.done r)
              ∧ ∀ k, k ≠ t.query.fileID → getFile s1.fileStatus k = getFile s.fileStatus k) := by
  obtain ⟨u, hu, hleg, hcase⟩ := sysStep_cases cfg i env s s1 h
  rw [ht] at hu
  simp only [Option.some.injEq] at hu
  subst hu
  have hi : i < s.threads.length := by
    rw [List.getElem?_eq_some] at ht
    exact ht.1
  rcases hcase with ⟨hk, hpc, rfl⟩ | ⟨op, f, pc1, f1, hk, hg, hseg, rfl⟩
  · simp only [List.getElem?_set, hi, if_true, Option.some.injEq] at ht1
    subst ht1
    refine ⟨rfl, hleg, ?_, Or.inl ⟨hk, hpc, rfl, rfl⟩⟩
    intro j hj
    simp [List.getElem?_set, Ne.symm hj]
  · simp only [List.getElem?_set, hi, if_true, Option.some.injEq] at ht1
    subst ht1
    refine ⟨rfl, hleg, ?_, Or.inr ⟨op, f, f1, hk, hg, ?_, ?_, hseg, ?_, ?_⟩⟩
    · intro j hj
      simp [List.getElem?_set, Ne.symm hj]
    · exact getFile_setFile_same _ _ f _ hg
    · exact fileSegment_effect cfg op t.query env t.pc pc1 f f1 hseg
    · intro r hr
      rw [hr] at hseg
      simp [fileSegment] at hseg
    · intro k hk2
      exact getFile_setFile_ne _ _ _ _ (getFile_nonneg _ _ _ hg) hk2

/-- The facts that hold when a worker takes its admission step. -/
theorem entering_step_facts (cfg : Config) (s s1 : Sys) (i : Nat) (env : Env) (t t1 : Thread)
    (h : sysStep cfg i env s = some s1) (ht : s.threads[i]? = some t)
    (ht1 : s1.threads[i]? = some t1) (hpc : t.pc ≠ Pc.executing) (hpc1 : t1.pc = Pc.executing) :
    ∃ op f, executeOperationKind t.query.fileOperation = some op
      ∧ getFile s.fileStatus t.query.fileID = some f
      ∧ (waitCond cfg op f = false ∨ ∃ d, t.pc = Pc.waiting d ∧ env.timedOut = true)
      ∧ validFile cfg t.query f = true
      ∧ checkResponseTime cfg env.tCheck t.query = true
      ∧ (t.pc = Pc.entry ∨ t.pc = Pc.settle → wrapInt (t.query.reqTime + 1) ≤ env.tSettle)
      ∧ (t.pc = Pc.entry ∨ t.pc = Pc.settle ∨ ∃ d, t.pc = Pc.waiting d) := by
  obtain ⟨_, _, _, hcase⟩ := sysStep_effect cfg s s1 i env t t1 h ht ht1
  obtain ⟨q, pc, seen⟩ := t
  obtain ⟨q1, pc1, seen1⟩ := t1
  simp only at hpc hpc1 hcase ⊢
  subst hpc1
  rcases hcase with ⟨_, _, hd, _⟩ | ⟨op, f, f1, hk, hg, _, heff, _, hnd, _⟩
  · simp at hd
  · refine ⟨op, f, hk, hg, ?_⟩
    cases heff with
    | stay _ _ _ _ e1 e2 e3 e4 e5 => exact absurd rfl e2
    | enter _ _ g e1 e2 e3 e4 e5 e6 =>
      refine ⟨e3, e4, e5, e6, ?_⟩
      cases pc with
      | entry => exact Or.inl rfl
      | settle => exact Or.inr (Or.inl rfl)
      | waiting d => exact Or.inr (Or.inr ⟨d, rfl⟩)
      | executing => exact absurd rfl hpc
      | done r => exact absurd rfl (hnd r)

/-- At an admission step the wait-loop condition of the operation is false. -/
theorem entering_step_pred (cfg : Config) (hcfg : cfg.ok) (s s1 : Sys) (i : Nat) (env : Env)
    (t t1 : Thread) (hok : SysOk cfg s)
    (h : sysStep cfg i env s = some s1) (ht : s.threads[i]? = some t)
    (ht1 : s1.threads[i]? = some t1) (hpc : t.pc ≠ Pc.executing) (hpc1 : t1.pc = Pc.executing) :
    ∃ op f, executeOperationKind t.query.fileOperation = some op
      ∧ getFile s.fileStatus t.query.fileID = some f
      ∧ waitCond cfg op f = false ∧ validFile cfg t.query f = true := by
  obtain ⟨op, f, hk, hg, hw, hv, hc, _, _⟩ :=
    entering_step_facts cfg s s1 i env t t1 h ht ht1 hpc hpc1
  obtain ⟨_, hleg, _, _⟩ := sysStep_effect cfg s s1 i env t t1 h ht ht1
  have hmem := mem_of_getElem?_eq _ _ _ ht
  refine ⟨op, f, hk, hg, ?_, hv⟩
  rcases hw with e | ⟨d, e7, e8⟩
  · exact e
  · have := (timedOut_check cfg hcfg t env (hok.timed t hmem) (hok.threads t hmem).1
      hleg d e7 e8).2
    rw [this] at hc
    exact absurd hc (by simp)

/-- Claim C1. With `maxUsers >= 1`, in every state reachable from `resetFileStatus` through the
lock-held segments of the handlers, every file has `currentUserCount <= maxUsers` and
`currentUserCount = ReaderCount + (writeInProgress ? 1 : 0) + (deleteInProgress ? 1 : 0)`. -/
theorem capacity_invariant (cfg : Config) (queries : List UserQuery) (s : Sys) (k : Int)
    (f : FileStatus) (hcfg : cfg.ok) (hmu : 1 ≤ cfg.maxUsers) (hq : ∀ q ∈ queries, q.timeOk)
    (hr : Reachable cfg queries s) (hf : getFile s.fileStatus k = some f) :
    f.currentUserCount ≤ cfg.maxUsers
      ∧ f.currentUserCount
          = f.ReaderCount + (if f.writeInProgress then 1 else 0)
              + (if f.deleteInProgress then 1 else 0) := by
  have hok := (reachable_ok cfg hcfg queries hq s hr).files k f hf
  refine ⟨?_, hok.total⟩
  have := hok.cap
  omega

/-- Claim C2. In every reachable state, a write or delete admission step is not taken while
`writeInProgress` or `deleteInProgress` is set on the file, a delete admission step is not taken
while `ReaderCount > 0` or `writeInProgress`, no read or write admission step is taken while
`deleteInProgress` is set; and `deleteInProgress` implies `ReaderCount = 0` and not
`writeInProgress`. -/
theorem mutual_exclusion (cfg : Config) (queries : List UserQuery) (s : Sys) (hcfg : cfg.ok)
    (hq : ∀ q ∈ queries, q.timeOk) (hr : Reachable cfg queries s) :
    (∀ k g, getFile s.fileStatus k = some g → g.deleteInProgress = true →
        g.ReaderCount = 0 ∧ g.writeInProgress = false)
    ∧ ∀ (i : Nat) (env : Env) (s1 : Sys) (t t1 : Thread) (f : FileStatus),
        sysStep cfg i env s = some s1 → s.threads[i]? = some t → s1.threads[i]? = some t1 →
        getFile s.fileStatus t.query.fileID = some f →
        t.pc ≠ Pc.executing → t1.pc = Pc.executing →
        ((t.query.fileOperation = WRITE_OP ∨ t.query.fileOperation = DELETE_OP) →
            f.writeInProgress = false ∧ f.deleteInProgress = false)
        ∧ (t.query.fileOperation = DELETE_OP → f.ReaderCount = 0 ∧ f.writeInProgress = false)
        ∧ ((t.query.fileOperation = READ_OP ∨ t.query.fileOperation = WRITE_OP) →
            f.deleteInProgress = false) := by
  have hok := reachable_ok cfg hcfg queries hq s hr
  refine ⟨fun k g hg hd => (hok.files k g hg).excl hd, ?_⟩
  intro i env s1 t t1 f hstep ht ht1 hf hpc hpc1
  obtain ⟨op, f2, hk, hg, hw, hv⟩ := entering_step_pred cfg hcfg s s1 i env t t1 hok hstep ht ht1 hpc hpc1
  rw [hf] at hg
  simp only [Option.some.injEq] at hg
  subst hg
  obtain ⟨c1, c2, c3⟩ := waitCond_false cfg op f hw
  obtain ⟨v1, v2, v3⟩ := validFile_true cfg t.query f hv
  have hcode := executeOperationKind_eq _ _ hk
  have hfok := hok.files _ f hf
  have hrc : 0 ≤ f.ReaderCount := by rw [hfok.readers]; omega
  refine ⟨?_, ?_, fun _ => v3⟩
  · intro hop
    refine ⟨c2 ?_, v3⟩
    intro e; subst e
    simp [hcode, opCode, READ_OP, WRITE_OP, DELETE_OP] at hop
  · intro hop
    have hopd : op = Op.delete := by
      cases op <;> simp [hcode, opCode, READ_OP, WRITE_OP, DELETE_OP] at hop ⊢
    have := c3 hopd
    exact ⟨by omega, c2 (by rw [hopd]; simp)⟩

/-- Claim C4. Whenever a handler takes its admission step, the clock value `t` read by
`checkResponseTime` satisfies `reqTime + 1 <= t` and `t - reqTime < maxWaitTime` (as the code
computes them, and as plain integers when the scheduled time is non-negative with `reqTime + 1`
an `int`); and when `fetchCurrentTime() - reqTime >= maxWaitTime` in `checkResponseTime`, the
handler takes its abort branch and returns false. -/
theorem admission_window (cfg : Config) (queries : List UserQuery) (s s1 : Sys) (i : Nat)
    (env : Env) (t t1 : Thread) (hr : Reachable cfg queries s)
    (hstep : sysStep cfg i env s = some s1) (ht : s.threads[i]? = some t)
    (ht1 : s1.threads[i]? = some t1) (hpc : t.pc ≠ Pc.executing) (hpc1 : t1.pc = Pc.executing) :
    (wrapInt (t.query.reqTime + 1) ≤ env.tCheck
        ∧ wrapInt (env.tCheck - t.query.reqTime) < cfg.maxWaitTime)
    ∧ (t.query.timeOk →
        t.query.reqTime + 1 ≤ env.tCheck ∧ env.tCheck - t.query.reqTime < cfg.maxWaitTime)
    ∧ ∀ (op : Op) (fileID : Int) (e : Env) (tbl : List FileStatus) (f : FileStatus),
        getFile tbl fileID = some f →
        cfg.maxWaitTime ≤ wrapInt (e.tCheck - t.query.reqTime) →
        admission cfg op t.query fileID e tbl
          = some (Pc.done false, setFile tbl fileID (decWaiting f)) := by
  obtain ⟨op, f, hk, hg, hw, hv, hc, hset, hpcs⟩ :=
    entering_step_facts cfg s s1 i env t t1 hstep ht ht1 hpc hpc1
  obtain ⟨_, hleg, _, _⟩ := sysStep_effect cfg s s1 i env t t1 hstep ht ht1
  obtain ⟨l1, l2, l3, l4, l5⟩ := envLegal_spec _ _ _ hleg
  have htm := reachable_timed cfg queries s hr t (mem_of_getElem?_eq _ _ _ ht)
  have h1 : wrapInt (t.query.reqTime + 1) ≤ env.tCheck := by
    rcases hpcs with e | e | ⟨d, e⟩
    · have := hset (Or.inl e); omega
    · have := hset (Or.inr e); omega
    · have := (htm d e).1; omega
  have h2 : wrapInt (env.tCheck - t.query.reqTime) < cfg.maxWaitTime := by
    unfold checkResponseTime at hc
    split_ifs at hc with h3
    omega
  refine ⟨⟨h1, h2⟩, ?_, ?_⟩
  · intro hq
    obtain ⟨q1, q2⟩ := hq
    unfold wrapInt at h1 h2
    omega
  · intro op2 fid e tbl f2 hf2 hlate
    unfold admission
    rw [hf2]
    have : checkResponseTime cfg e.tCheck t.query = false := by
      unfold checkResponseTime
      rw [if_pos hlate]
    simp [this]

/-- Claim C10. With `maxWaitTime >= 1`: a timed wait begins at a clock value `>= reqTime + 1` and its
deadline lies `maxWaitTime - 1` seconds after that; a wait that ends by `ETIMEDOUT` is followed
by `now - reqTime >= maxWaitTime` in `checkResponseTime` and the handler returns false; so an
admission step is only taken in a state where the admission predicate of the operation holds. -/
theorem timeout_cancels (cfg : Config) (queries : List UserQuery) (s s1 : Sys) (i : Nat)
    (env : Env) (t t1 : Thread) (hcfg : cfg.ok) (hmw : 1 ≤ cfg.maxWaitTime)
    (hq : ∀ q ∈ queries, q.timeOk) (hr : Reachable cfg queries s)
    (hstep : sysStep cfg i env s = some s1) (ht : s.threads[i]? = some t)
    (ht1 : s1.threads[i]? = some t1) :
    (∀ d, t.pc = Pc.waiting d →
        ∃ tStart, t.query.reqTime + 1 ≤ tStart ∧ d = tStart + (cfg.maxWaitTime - 1))
    ∧ (∀ d, t.pc = Pc.waiting d → env.timedOut = true →
        cfg.maxWaitTime ≤ env.tCheck - t.query.reqTime
          ∧ checkResponseTime cfg env.tCheck t.query = false ∧ t1.pc = Pc.done false)
    ∧ (t.pc ≠ Pc.executing → t1.pc = Pc.executing →
        ∃ op f, executeOperationKind t.query.fileOperation = some op
          ∧ getFile s.fileStatus t.query.fileID = some f ∧ waitCond cfg op f = false
          ∧ f.currentUserCount < cfg.maxUsers) := by
  have hok := reachable_ok cfg hcfg queries hq s hr
  have hmem := mem_of_getElem?_eq _ _ _ ht
  have htm := hok.timed t hmem
  have htq := (hok.threads t hmem).1
  obtain ⟨_, hleg, _, hcase⟩ := sysStep_effect cfg s s1 i env t t1 hstep ht ht1
  refine ⟨?_, ?_, ?_⟩
  · intro d hd
    obtain ⟨w1, w2⟩ := htm d hd
    obtain ⟨q1, q2⟩ := htq
    obtain ⟨_, m1, m2⟩ := hcfg
    refine ⟨d - (cfg.maxWaitTime - 1), ?_, by omega⟩
    unfold wrapInt at w1 w2
    omega
  · intro d hd hto
    obtain ⟨c1, c2⟩ := timedOut_check cfg hcfg t env htm htq hleg d hd hto
    refine ⟨c1, c2, ?_⟩
    rcases hcase with ⟨_, hpc, _, _⟩ | ⟨op, f, f1, hk, hg, _, _, hseg, _, _⟩
    · rw [hd] at hpc; simp at hpc
    · rw [hd] at hseg
      simp only [fileSegment, hto, if_true, fileAdmission, c2, Bool.not_false,
        Option.some.injEq, Prod.mk.injEq] at hseg
      exact hseg.1.symm
  · intro hpc hpc1
    obtain ⟨op, f, hk, hg, hw, _⟩ :=
      entering_step_pred cfg hcfg s s1 i env t t1 hok hstep ht ht1 hpc hpc1
    exact ⟨op, f, hk, hg, hw, (waitCond_false cfg op f hw).1⟩

theorem steps_reachable (cfg : Config) (queries : List UserQuery) (s s1 : Sys)
    (hr : Reachable cfg queries s) (hs : Steps cfg s s1) : Reachable cfg queries s1 := by
  induction hs with
  | refl => exact hr
  | step s1 s2 i env _ hstep ih => exact Reachable.step s1 s2 i env ih hstep

theorem sysStep_length (cfg : Config) (s s1 : Sys) (i : Nat) (env : Env)
    (h : sysStep cfg i env s = some s1) : s1.threads.length = s.threads.length := by
  obtain ⟨t, ht, hleg, hcase⟩ := sysStep_cases cfg i env s s1 h
  rcases hcase with ⟨_, _, rfl⟩ | ⟨op, f, pc1, f1, _, _, _, rfl⟩ <;> simp

theorem steps_length (cfg : Config) (s s1 : Sys) (hs : Steps cfg s s1) :
    s1.threads.length = s.threads.length := by
  induction hs with
  | refl => rfl
  | step s1 s2 i env _ hstep ih => rw [sysStep_length cfg s1 s2 i env hstep, ih]

/-- On a file that is gone no worker is between `start*` and `finish*` / `complete*`. -/
theorem absent_idle (cfg : Config) (s : Sys) (hok : SysOk cfg s) (k : Int) (f : FileStatus)
    (hf : getFile s.fileStatus k = some f) (hp : f.isPresent = false) (t : Thread)
    (ht : t ∈ s.threads) (hk : t.query.fileID = k) : t.pc ≠ Pc.executing := by
  intro hpc
  obtain ⟨op, hop⟩ := (hok.threads t ht).2 hpc
  have hcode := executeOperationKind_eq _ _ hop
  have hfok := hok.files k f hf
  have h0 := hfok.gone hp
  have ht0 := hfok.total
  have hr0 := hfok.readers
  have hw0 := hfok.writers
  have hd0 := hfok.deleters
  have hex : executingOn (opCode op) k t = true := by simp [executingOn, hk, hcode, hpc]
  have hpos : 0 < execCount (opCode op) k s.threads := by
    unfold execCount
    rw [List.countP_pos_iff]
    exact ⟨t, ht, hex⟩
  cases hwr : f.writeInProgress <;> cases hdl : f.deleteInProgress <;>
    simp only [hwr, hdl, bit, Bool.false_eq_true, if_false, if_true] at ht0 hw0 hd0 <;>
    cases op <;> simp only [opCode] at hpos <;> omega

theorem absent_step (cfg : Config) (s s1 : Sys) (i : Nat) (env : Env)
    (hok : SysOk cfg s) (k : Int) (f : FileStatus) (hf : getFile s.fileStatus k = some f)
    (hp : f.isPresent = false) (h : sysStep cfg i env s = some s1) :
    (∃ f1, getFile s1.fileStatus k = some f1 ∧ f1.isPresent = false)
      ∧ ∀ (j : Nat) (t t1 : Thread), s.threads[j]? = some t → s1.threads[j]? = some t1 →
          t1.query = t.query
            ∧ (t.query.fileID = k →
                t1.pc ≠ Pc.executing ∧ (t1.pc = Pc.done true → t.pc = Pc.done true)) := by
  obtain ⟨ti, hti, _, _⟩ := sysStep_cases cfg i env s s1 h
  have hlen := sysStep_length cfg s s1 i env h
  have hi : i < s.threads.length := by
    rw [List.getElem?_eq_some] at hti; exact hti.1
  have hi1 : i < s1.threads.length := by omega
  obtain ⟨hq1, _, hother, hcase⟩ :=
    sysStep_effect cfg s s1 i env ti (s1.threads[i]) h hti (List.getElem?_eq_getElem hi1)
  have hidle := absent_idle cfg s hok k f hf hp
  have hfile : (∃ f1, getFile s1.fileStatus k = some f1 ∧ f1.isPresent = false)
      ∧ (ti.query.fileID = k → (s1.threads[i]).pc ≠ Pc.executing
          ∧ (s1.threads[i]).pc ≠ Pc.done true) := by
    rcases hcase with ⟨_, _, hd, hfs⟩ | ⟨op, g, g1, hk, hg, hg1, heff, _, _, hne⟩
    · rw [hfs]
      exact ⟨⟨f, hf, hp⟩, fun _ => by rw [hd]; simp⟩
    · by_cases hkf : ti.query.fileID = k
      · rw [hkf] at hg hg1
        rw [hf] at hg
        simp only [Option.some.injEq] at hg
        subst hg
        have hnex := hidle ti (mem_of_getElem?_eq _ _ _ hti) hkf
        generalize (s1.threads[i]).pc = pc1 at heff ⊢
        generalize hpc : ti.pc = pc at heff hnex
        cases heff with
        | stay _ _ _ _ e1 e2 e3 e4 e5 =>
          exact ⟨⟨g1, hg1, by rw [e4.1]; exact hp⟩, fun _ => ⟨e2, e3⟩⟩
        | enter _ _ g2 e1 e2 e3 e4 e5 e6 =>
          have := (validFile_true cfg ti.query f e4).2.1
          rw [hp] at this
          exact absurd this (by simp)
        | finish _ => exact absurd rfl hnex
      · refine ⟨⟨f, ?_, hp⟩, fun e => absurd e hkf⟩
        rw [hne k (fun e => hkf e.symm)]
        exact hf
  refine ⟨hfile.1, ?_⟩
  intro j t t1 ht ht1
  by_cases hj : j = i
  · subst hj
    rw [hti] at ht
    simp only [Option.some.injEq] at ht
    subst ht
    rw [List.getElem?_eq_getElem hi1] at ht1
    simp only [Option.some.injEq] at ht1
    subst ht1
    refine ⟨hq1, fun e => ?_⟩
    have := hfile.2 e
    exact ⟨this.1, fun e2 => absurd e2 this.2⟩
  · rw [hother j hj, ht] at ht1
    simp only [Option.some.injEq] at ht1
    subst ht1
    exact ⟨rfl, fun e => ⟨hidle t (mem_of_getElem?_eq _ _ _ ht) e, fun e2 => e2⟩⟩

/-- Claim C3. Once a file's `isPresent` is false in a reachable state, it stays false through every
later step, no worker whose request targets that file is admitted later (it is never between
`start*` and `complete*`), and every handler on that file that returns later returns false. -/
theorem deleted_file_permanence (cfg : Config) (queries : List UserQuery) (s s1 : Sys) (k : Int)
    (f : FileStatus) (hcfg : cfg.ok) (hq : ∀ q ∈ queries, q.timeOk)
    (hr : Reachable cfg queries s) (hf : getFile s.fileStatus k = some f)
    (hp : f.isPresent = false) (hs : Steps cfg s s1) :
    (∃ f1, getFile s1.fileStatus k = some f1 ∧ f1.isPresent = false)
      ∧ ∀ (j : Nat) (t t1 : Thread), s.threads[j]? = some t → s1.threads[j]? = some t1 →
          t1.query = t.query
            ∧ (t.query.fileID = k →
                t1.pc ≠ Pc.executing ∧ (t1.pc = Pc.done true → t.pc = Pc.done true)) := by
  induction hs with
  | refl =>
    refine ⟨⟨f, hf, hp⟩, ?_⟩
    intro j t t1 ht ht1
    rw [ht] at ht1
    simp only [Option.some.injEq] at ht1
    subst ht1
    have hok := reachable_ok cfg hcfg queries hq s hr
    exact ⟨rfl, fun e => ⟨absent_idle cfg s hok k f hf hp t (mem_of_getElem?_eq _ _ _ ht) e,
      fun e2 => e2⟩⟩
  | step s1 s2 i env hs1 hstep ih =>
    obtain ⟨⟨f1, hf1, hp1⟩, ihth⟩ := ih
    have hok1 := reachable_ok cfg hcfg queries hq s1 (steps_reachable cfg queries s s1 hr hs1)
    obtain ⟨a1, a2⟩ := absent_step cfg s1 s2 i env hok1 k f1 hf1 hp1 hstep
    refine ⟨a1, ?_⟩
    intro j t t2 ht ht2
    have hj : j < s.threads.length := by
      rw [List.getElem?_eq_some] at ht; exact ht.1
    have hj1 : j < s1.threads.length := by rw [steps_length cfg s s1 hs1]; exact hj
    have ht1 := List.getElem?_eq_getElem hj1
    obtain ⟨b1, b2⟩ := ihth j t _ ht ht1
    obtain ⟨c1, c2⟩ := a2 j _ t2 ht1 ht2
    refine ⟨c1.trans b1, fun e => ?_⟩
    have hb := b2 e
    have hc := c2 (by rw [b1]; exact e)
    exact ⟨hc.1, fun e2 => hb.2 (hc.2 e2)⟩

theorem decWaiting_incWaiting (f : FileStatus) (h : isInt f.waiting_requests) :
    decWaiting (incWaiting f) = f := by
  obtain ⟨p, wr, dl, rc, cc, wt⟩ := f
  obtain ⟨h1, h2⟩ := h
  simp only at h1 h2
  simp only [decWaiting, incWaiting, FileStatus.mk.injEq, true_and]
  unfold wrapInt
  omega

theorem fileSegment_pre (cfg : Config) (op : Op) (q : UserQuery) (pc pc1 : Pc) (env : Env)
    (f f1 : FileStatus) (hpc : pc = Pc.settle ∨ ∃ d, pc = Pc.waiting d)
    (h : fileSegment cfg op q pc env f = some (pc1, f1)) :
    ((pc1 = Pc.settle ∨ ∃ d, pc1 = Pc.waiting d) ∧ f1 = f)
      ∨ (pc1 = Pc.done false ∧ f1 = decWaiting f)
      ∨ pc1 = Pc.executing := by
  have hadm : ∀ r : Pc × FileStatus, r = fileAdmission cfg op q env f →
      (r.1 = Pc.done false ∧ r.2 = decWaiting f) ∨ r.1 = Pc.executing := by
    intro r hr
    unfold fileAdmission at hr
    split_ifs at hr <;> simp [hr]
  have hacc : ∀ (d : Int) (r : Pc × FileStatus), r = fileAccessTest cfg op q d env f →
      ((r.1 = Pc.settle ∨ ∃ d, r.1 = Pc.waiting d) ∧ r.2 = f)
        ∨ (r.1 = Pc.done false ∧ r.2 = decWaiting f) ∨ r.1 = Pc.executing := by
    intro d r hr
    unfold fileAccessTest at hr
    split_ifs at hr
    · simp [hr]
    · exact Or.inr (hadm r hr)
  rcases hpc with hpc | ⟨d, hpc⟩
  · subst hpc
    simp only [fileSegment, Option.some.injEq] at h
    unfold fileSettleTest at h
    split_ifs at h
    · simp only [Prod.mk.injEq] at h
      exact Or.inl ⟨Or.inl h.1.symm, h.2.symm⟩
    · exact hacc _ _ h.symm
  · subst hpc
    simp only [fileSegment, Option.some.injEq] at h
    split_ifs at h
    · exact Or.inr (hadm _ h.symm)
    · exact hacc _ _ h.symm

theorem runHandler_done (cfg : Config) (op : Op) (q : UserQuery) (fid : Int) (r : Bool)
    (envs : List Env) (tbl : List FileStatus) :
    runHandler cfg op q fid (Pc.done r) envs tbl = some (r, tbl) := by
  cases envs <;> simp [runHandler]

theorem runHandler_executing (cfg : Config) (op : Op) (q : UserQuery) (fid : Int) (r : Bool)
    (envs : List Env) (tbl tbl2 : List FileStatus)
    (h : runHandler cfg op q fid Pc.executing envs tbl = some (r, tbl2)) : r = true := by
  cases envs with
  | nil => simp [runHandler] at h
  | cons env rest =>
    simp only [runHandler, segment] at h
    cases hg : getFile tbl fid with
    | none => simp [hg] at h
    | some f =>
      simp only [hg, runHandler_done, Option.some.injEq, Prod.mk.injEq] at h
      exact h.1.symm

theorem runHandler_pre (cfg : Config) (op : Op) (q : UserQuery) (envs : List Env) (pc : Pc)
    (tbl tbl2 : List FileStatus) (g : FileStatus)
    (hpc : pc = Pc.settle ∨ ∃ d, pc = Pc.waiting d) (hg : getFile tbl q.fileID = some g)
    (h : runHandler cfg op q q.fileID pc envs tbl = some (false, tbl2)) :
    tbl2 = setFile tbl q.fileID (decWaiting g) := by
  induction envs generalizing pc with
  | nil => rcases hpc with e | ⟨d, e⟩ <;> subst e <;> simp [runHandler] at h
  | cons env rest ih =>
    have hrun : ∃ pc1 g1, fileSegment cfg op q pc env g = some (pc1, g1)
        ∧ runHandler cfg op q q.fileID pc1 rest (setFile tbl q.fileID g1) = some (false, tbl2) := by
      have hseg := segment_eq cfg op q pc env tbl g hg
      rcases hpc with e | ⟨d, e⟩ <;> subst e <;>
        simp only [runHandler, hseg] at h <;>
        cases hfs : fileSegment cfg op q _ env g <;> simp only [hfs, Option.map_none',
          Option.map_some'] at h <;> first | exact absurd h (by simp) | exact ⟨_, _, rfl, h⟩
    obtain ⟨pc1, g1, hfs, hrest⟩ := hrun
    rcases fileSegment_pre cfg op q pc pc1 env g g1 hpc hfs with ⟨e1, e2⟩ | ⟨e1, e2⟩ | e1
    · rw [e2, setFile_self tbl _ g hg] at hrest
      exact ih pc1 e1 hrest
    · subst e1 e2
      rw [runHandler_done] at hrest
      simp only [Option.some.injEq, Prod.mk.injEq, true_and] at hrest
      exact hrest.symm
    · subst e1
      have := runHandler_executing cfg op q _ _ _ _ _ hrest
      exact absurd this (by simp)

theorem runHandler_abort (cfg : Config) (op : Op) (q : UserQuery) (envs : List Env)
    (tbl tbl2 : List FileStatus) (f : FileStatus) (hf : getFile tbl q.fileID = some f)
    (hw : isInt f.waiting_requests)
    (h : runHandler cfg op q q.fileID Pc.entry envs tbl = some (false, tbl2)) : tbl2 = tbl := by
  cases envs with
  | nil => simp [runHandler] at h
  | cons env rest =>
    have hseg := segment_eq cfg op q Pc.entry env tbl f hf
    simp only [runHandler, hseg] at h
    have hfs : fileSegment cfg op q Pc.entry env f
        = fileSegment cfg op q Pc.settle env (incWaiting f) := rfl
    cases hres : fileSegment cfg op q Pc.settle env (incWaiting f) with
    | none => simp [fileSegment] at hres
    | some r =>
      obtain ⟨pc1, g1⟩ := r
      rw [hfs, hres] at h
      simp only [Option.map_some'] at h
      have hback : setFile tbl q.fileID (decWaiting (incWaiting f)) = tbl := by
        rw [decWaiting_incWaiting f hw]; exact setFile_self tbl _ f hf
      rcases fileSegment_pre cfg op q Pc.settle pc1 env (incWaiting f) g1 (Or.inl rfl) hres
        with ⟨e1, e2⟩ | ⟨e1, e2⟩ | e1
      · subst e2
        have := runHandler_pre cfg op q rest pc1 _ tbl2 (incWaiting f) e1
          (getFile_setFile_same tbl _ f _ hf) h
        rw [this, setFile_setFile, hback]
      · subst e1 e2
        rw [runHandler_done] at h
        simp only [Option.some.injEq, Prod.mk.injEq, true_and] at h
        rw [← h, hback]
      · subst e1
        have := runHandler_executing cfg op q _ _ _ _ _ h
        exact absurd this (by simp)

theorem runHandler_abort_now (cfg : Config) (op : Op) (q : UserQuery) (env : Env)
    (rest : List Env) (tbl : List FileStatus) (f : FileStatus)
    (hf : getFile tbl q.fileID = some f) (hw : isInt f.waiting_requests)
    (hs : wrapInt (q.reqTime + 1) ≤ env.tSettle) (hb : waitCond cfg op f = false)
    (hfail : checkResponseTime cfg env.tCheck q = false ∨ checkCond cfg op tbl q = some false) :
    runHandler cfg op q q.fileID Pc.entry (env :: rest) tbl = some (false, tbl) := by
  have hseg := segment_eq cfg op q Pc.entry env tbl f hf
  have hwc : waitCond cfg op (incWaiting f) = false := by
    rw [waitCond_sameCore cfg op (sameCore_inc f)]; exact hb
  have hvalid : checkResponseTime cfg env.tCheck q = false ∨ validFile cfg q (incWaiting f) = false := by
    rcases hfail with e | e
    · exact Or.inl e
    · rw [checkCond_eq cfg op tbl q f hf] at e
      exact Or.inr (by rw [validFile_sameCore cfg q (sameCore_inc f)]; exact Option.some.inj e)
  have hres : fileSegment cfg op q Pc.entry env f
      = some (Pc.done false, decWaiting (incWaiting f)) := by
    simp only [fileSegment, fileSettleTest, hs, ge_iff_le, decide_True, Bool.not_true,
      Bool.false_eq_true, if_false, fileAccessTest, hwc, fileAdmission]
    rcases hvalid with e | e
    · simp [e]
    · cases hc : checkResponseTime cfg env.tCheck q <;> simp [e]
  simp only [runHandler, hseg, hres, Option.map_some', runHandler_done]
  rw [decWaiting_incWaiting f hw, setFile_self tbl _ f hf]

theorem segment_abort_core (cfg : Config) (op : Op) (q : UserQuery) (pc : Pc) (env : Env)
    (tbl tbl1 : List FileStatus) (f : FileStatus) (hf : getFile tbl q.fileID = some f)
    (h : segment cfg op q q.fileID pc env tbl = some (Pc.done false, tbl1)) :
    ∃ f1, tbl1 = setFile tbl q.fileID f1 ∧ sameCore f f1 := by
  rw [segment_eq cfg op q pc env tbl f hf] at h
  cases hs : fileSegment cfg op q pc env f with
  | none => simp [hs] at h
  | some r =>
    obtain ⟨pc1, f1⟩ := r
    simp only [hs, Option.map_some', Option.some.injEq, Prod.mk.injEq] at h
    obtain ⟨h1, h2⟩ := h
    subst h1
    refine ⟨f1, h2.symm, ?_⟩
    have heff := fileSegment_effect cfg op q env pc (Pc.done false) f f1 hs
    generalize hpc1 : Pc.done false = pc1 at heff
    cases heff with
    | stay _ _ _ _ e1 e2 e3 e4 e5 => exact e4
    | enter _ _ g e1 e2 e3 e4 e5 e6 => simp at hpc1
    | finish _ => simp at hpc1

/-- Claim C9. For each of handleFileRead, handleFileWrite and handleFileDeletion: a handler that
returns false leaves the whole file record, waiting_requests included, as it was on entry; when
the deadline check or the validity check fails, the handler takes the abort branch, which
returns false and changes nothing but waiting_requests (decremented once); a handler whose first
pass reaches Phase C and fails a check there returns false with the record restored; and any
segment that ends in the return of false leaves isPresent, writeInProgress, deleteInProgress,
ReaderCount and currentUserCount as it found them. -/
theorem abort_atomicity (cfg : Config) (q : UserQuery) (envs : List Env)
    (tbl : List FileStatus) (f : FileStatus) (hf : getFile tbl q.fileID = some f)
    (hw : isInt f.waiting_requests) :
    (∀ tbl2, handleFileRead cfg q q.fileID envs tbl = some (false, tbl2) → tbl2 = tbl)
    ∧ (∀ tbl2, handleFileWrite cfg q q.fileID envs tbl = some (false, tbl2) → tbl2 = tbl)
    ∧ (∀ tbl2, handleFileDeletion cfg q q.fileID envs tbl = some (false, tbl2) → tbl2 = tbl)
    ∧ (∀ (op : Op) (env : Env),
        (checkResponseTime cfg env.tCheck q = false ∨ checkCond cfg op tbl q = some false) →
        admission cfg op q q.fileID env tbl
            = some (Pc.done false, setFile tbl q.fileID (decWaiting f))
          ∧ sameCore f (decWaiting f)
          ∧ (decWaiting f).waiting_requests = wrapInt (f.waiting_requests - 1))
    ∧ (∀ (op : Op) (env : Env) (rest : List Env),
        wrapInt (q.reqTime + 1) ≤ env.tSettle → waitCond cfg op f = false →
        (checkResponseTime cfg env.tCheck q = false ∨ checkCond cfg op tbl q = some false) →
        runHandler cfg op q q.fileID Pc.entry (env :: rest) tbl = some (false, tbl))
    ∧ ∀ (op : Op) (pc : Pc) (env : Env) (tbl1 : List FileStatus),
        segment cfg op q q.fileID pc env tbl = some (Pc.done false, tbl1) →
        ∃ f1, tbl1 = setFile tbl q.fileID f1 ∧ sameCore f f1 := by
  refine ⟨fun tbl2 h => runHandler_abort cfg Op.read q envs tbl tbl2 f hf hw h,
    fun tbl2 h => runHandler_abort cfg Op.write q envs tbl tbl2 f hf hw h,
    fun tbl2 h => runHandler_abort cfg Op.delete q envs tbl tbl2 f hf hw h, ?_,
    fun op env rest hs hb hfail => runHandler_abort_now cfg op q env rest tbl f hf hw hs hb hfail,
    fun op pc env tbl1 h => segment_abort_core cfg op q pc env tbl tbl1 f hf h⟩
  intro op env hfail
  refine ⟨?_, sameCore_dec f, rfl⟩
  unfold admission
  rw [hf]
  rcases hfail with e | e
  · simp [e]
  · cases hc : checkResponseTime cfg env.tCheck q <;> simp [e]

/-- Inside the array and from index 0 on, `checkCondFor*` declines exactly the requests whose
index is not below `fileCount`, whose file is gone, or whose file is being deleted. -/
theorem checkCond_in_range (cfg : Config) (op : Op) (tbl : List FileStatus) (q : UserQuery)
    (f : FileStatus) (hf : getFile tbl q.fileID = some f) :
    checkCond cfg op tbl q
      = some (!(decide (q.fileID ≥ cfg.fileCount) || !f.isPresent || f.deleteInProgress)) :=
  checkCond_eq cfg op tbl q f hf

/-- A request whose index is `fileCount` or more is declined without any read of the array. -/
theorem checkCond_above (cfg : Config) (op : Op) (tbl : List FileStatus) (q : UserQuery)
    (h : q.fileID ≥ cfg.fileCount) : checkCond cfg op tbl q = some false := by
  cases op <;> simp [checkCond, checkCondForRead, checkCondForWrite, checkCondForDelete, h]

theorem runSys_reachable (cfg : Config) (queries : List UserQuery) (sched : List (Nat × Env))
    (s s1 : Sys) (hr : Reachable cfg queries s) (h : runSys cfg sched s = some s1) :
    Reachable cfg queries s1 := by
  induction sched generalizing s with
  | nil =>
    simp only [runSys, Option.some.injEq] at h
    subst h; exact hr
  | cons x rest ih =>
    obtain ⟨i, env⟩ := x
    simp only [runSys] at h
    cases hs : sysStep cfg i env s with
    | none => simp [hs] at h
    | some s2 =>
      simp only [hs] at h
      exact ih s2 (Reachable.step s s2 i env hr hs) h

set_option maxRecDepth 100000 in
theorem capacity_invariant_witness :
    sampleCfg.ok ∧ 1 ≤ sampleCfg.maxUsers ∧ (∀ q ∈ sampleQueries, q.timeOk)
      ∧ Reachable sampleCfg sampleQueries (sampleState schedDeleting)
      ∧ getFile (sampleState schedDeleting).fileStatus 0 = some fileDeleting
      ∧ fileDeleting.currentUserCount ≤ sampleCfg.maxUsers
      ∧ fileDeleting.currentUserCount
          = fileDeleting.ReaderCount + (if fileDeleting.writeInProgress then 1 else 0)
              + (if fileDeleting.deleteInProgress then 1 else 0) :=
  ⟨by decide, by decide, by decide,
    runSys_reachable sampleCfg sampleQueries schedDeleting _ _ Reachable.init (by decide),
    by decide,
    capacity_invariant sampleCfg sampleQueries (sampleState schedDeleting) 0 fileDeleting
      (by decide) (by decide) (by decide)
      (runSys_reachable sampleCfg sampleQueries schedDeleting _ _ Reachable.init (by decide))
      (by decide)⟩

set_option maxRecDepth 100000 in
theorem mutual_exclusion_witness :
    sampleCfg.ok ∧ (∀ q ∈ sampleQueries, q.timeOk)
      ∧ Reachable sampleCfg sampleQueries (sampleState schedWritten)
      ∧ sysStep sampleCfg 1 (envAt 2) (sampleState schedWritten)
          = some (sampleState schedDeleting)
      ∧ (fileWritten.writeInProgress = false ∧ fileWritten.deleteInProgress = false)
      ∧ (fileWritten.ReaderCount = 0 ∧ fileWritten.writeInProgress = false)
      ∧ (∀ k g, getFile (sampleState schedWritten).fileStatus k = some g →
          g.deleteInProgress = true → g.ReaderCount = 0 ∧ g.writeInProgress = false) :=
  ⟨by decide, by decide,
    runSys_reachable sampleCfg sampleQueries schedWritten _ _ Reachable.init (by decide),
    by decide,
    ((mutual_exclusion sampleCfg sampleQueries (sampleState schedWritten) (by decide) (by decide)
      (runSys_reachable sampleCfg sampleQueries schedWritten _ _ Reachable.init (by decide))).2
      1 (envAt 2) (sampleState schedDeleting) ⟨sampleDeleter, Pc.waiting 5, 1⟩
      ⟨sampleDeleter, Pc.executing, 2⟩ fileWritten
      (by decide) (by decide) (by decide) (by decide) (by decide) (by decide)).1 (Or.inr rfl),
    ((mutual_exclusion sampleCfg sampleQueries (sampleState schedWritten) (by decide) (by decide)
      (runSys_reachable sampleCfg sampleQueries schedWritten _ _ Reachable.init (by decide))).2
      1 (envAt 2) (sampleState schedDeleting) ⟨sampleDeleter, Pc.waiting 5, 1⟩
      ⟨sampleDeleter, Pc.executing, 2⟩ fileWritten
      (by decide) (by decide) (by decide) (by decide) (by decide) (by decide)).2.1 rfl,
    (mutual_exclusion sampleCfg sampleQueries (sampleState schedWritten) (by decide) (by decide)
      (runSys_reachable sampleCfg sampleQueries schedWritten _ _ Reachable.init (by decide))).1⟩

set_option maxRecDepth 100000 in
theorem deleted_file_permanence_witness :
    sampleCfg.ok ∧ (∀ q ∈ sampleQueries, q.timeOk)
      ∧ Reachable sampleCfg sampleQueries (sampleState schedDeleted)
      ∧ getFile (sampleState schedDeleted).fileStatus 0 = some fileDeleted
      ∧ fileDeleted.isPresent = false
      ∧ Steps sampleCfg (sampleState schedDeleted) (sampleState schedDeclined)
      ∧ (∃ f1, getFile (sampleState schedDeclined).fileStatus 0 = some f1 ∧ f1.isPresent = false)
      ∧ (sampleState schedDeclined).threads[2]? = some ⟨sampleReader, Pc.done false, 3⟩ :=
  ⟨by decide, by decide,
    runSys_reachable sampleCfg sampleQueries schedDeleted _ _ Reachable.init (by decide),
    by decide, rfl,
    Steps.step _ _ _ 2 (envAt 3) (Steps.refl _) (by decide),
    (deleted_file_permanence sampleCfg sampleQueries (sampleState schedDeleted) (sampleState schedDeclined)
      0 fileDeleted (by decide) (by decide)
      (runSys_reachable sampleCfg sampleQueries schedDeleted _ _ Reachable.init (by decide))
      (by decide) rfl (Steps.step _ _ _ 2 (envAt 3) (Steps.refl _) (by decide))).1,
    by decide⟩

set_option maxRecDepth 100000 in
theorem admission_window_witness :
    Reachable sampleCfg sampleQueries (sampleState schedWritten)
      ∧ sysStep sampleCfg 1 (envAt 2) (sampleState schedWritten)
          = some (sampleState schedDeleting)
      ∧ sampleDeleter.reqTime + 1 ≤ (envAt 2).tCheck
      ∧ (envAt 2).tCheck - sampleDeleter.reqTime < sampleCfg.maxWaitTime :=
  ⟨runSys_reachable sampleCfg sampleQueries schedWritten _ _ Reachable.init (by decide),
    by decide,
    (admission_window sampleCfg sampleQueries (sampleState schedWritten)
      (sampleState schedDeleting) 1 (envAt 2) ⟨sampleDeleter, Pc.waiting 5, 1⟩
      ⟨sampleDeleter, Pc.executing, 2⟩
      (runSys_reachable sampleCfg sampleQueries schedWritten _ _ Reachable.init (by decide))
      (by decide) (by decide) (by decide) (by decide) (by decide)).2.1 (by decide)⟩

set_option maxRecDepth 100000 in
theorem timeout_cancels_witness :
    sampleCfg.ok ∧ 1 ≤ sampleCfg.maxWaitTime ∧ (∀ q ∈ sampleQueries, q.timeOk)
      ∧ Reachable sampleCfg sampleQueries (sampleState schedBlocked)
      ∧ sysStep sampleCfg 1 { tSettle := 5, tStart := 5, tCheck := 5, timedOut := true }
          (sampleState schedBlocked) = some (sampleState schedTimedOut)
      ∧ (sampleState schedBlocked).threads[1]? = some ⟨sampleDeleter, Pc.waiting 5, 1⟩
      ∧ (sampleState schedTimedOut).threads[1]? = some ⟨sampleDeleter, Pc.done false, 5⟩
      ∧ sampleCfg.maxWaitTime ≤ 5 - sampleDeleter.reqTime
      ∧ checkResponseTime sampleCfg 5 sampleDeleter = false :=
  ⟨by decide, by decide, by decide,
    runSys_reachable sampleCfg sampleQueries schedBlocked _ _ Reachable.init (by decide),
    by decide, by decide, by decide,
    ((timeout_cancels sampleCfg sampleQueries (sampleState schedBlocked)
      (sampleState schedTimedOut) 1 { tSettle := 5, tStart := 5, tCheck := 5, timedOut := true }
      ⟨sampleDeleter, Pc.waiting 5, 1⟩ ⟨sampleDeleter, Pc.done false, 5⟩
      (by decide) (by decide) (by decide)
      (runSys_reachable sampleCfg sampleQueries schedBlocked _ _ Reachable.init (by decide))
      (by decide) (by decide) (by decide)).2.1 5 rfl rfl).1,
    ((timeout_cancels sampleCfg sampleQueries (sampleState schedBlocked)
      (sampleState schedTimedOut) 1 { tSettle := 5, tStart := 5, tCheck := 5, timedOut := true }
      ⟨sampleDeleter, Pc.waiting 5, 1⟩ ⟨sampleDeleter, Pc.done false, 5⟩
      (by decide) (by decide) (by decide)
      (runSys_reachable sampleCfg sampleQueries schedBlocked _ _ Reachable.init (by decide))
      (by decide) (by decide) (by decide)).2.1 5 rfl rfl).2.1⟩

theorem abort_atomicity_witness :
    getFile [fileDeleted] sampleReader.fileID = some fileDeleted
      ∧ isInt fileDeleted.waiting_requests
      ∧ handleFileRead sampleCfg sampleReader sampleReader.fileID [envAt 3] [fileDeleted]
          = some (false, [fileDeleted])
      ∧ (∀ tbl2, handleFileRead sampleCfg sampleReader sampleReader.fileID [envAt 3] [fileDeleted]
          = some (false, tbl2) → tbl2 = [fileDeleted]) :=
  ⟨by decide, by decide, by decide,
    (abort_atomicity sampleCfg sampleReader [envAt 3] [fileDeleted] fileDeleted
      (by decide) (by decide)).1⟩

/-- Claim C8 at a failing request. For the request that the input line `1 0 READ 0` produces (file
index -1) and `fileCount = 1`, the range test `fileID >= fileCount` of `checkCondForRead`,
`checkCondForWrite` and `checkCondForDelete` is false, so none of them declines by it: each
goes on to read `fileStatus[-1]`, outside the array. -/
theorem checkCond_negative_index :
    checkCondForRead sampleCfg resetFileStatus negativeIndexQuery = none
      ∧ checkCondForWrite sampleCfg resetFileStatus negativeIndexQuery = none
      ∧ checkCondForDelete sampleCfg resetFileStatus negativeIndexQuery = none := by
  refine ⟨?_, ?_, ?_⟩ <;> rfl

end LazyReadWrite
